import Mathlib

/-!
Verification development for the expression-evaluator primops of the Nix
build-description language (`src/libexpr/primops.cc`).  The data model and
operations below are shallow embeddings of the C++ source: pure functions
become Lean functions, the process-wide derivation-hash cache and the
`haveWarned` flag become explicitly threaded state, fallible code returns
`Except`/`Option`, and the unbounded recursion of `hashDerivationModulo`
is made total with an explicit fuel parameter (a run of the C++ code that
terminates corresponds to a run with sufficiently large fuel).

Collaborators that live outside the one source file (the hashing library,
the store API, the evaluator's coercion functions) are modelled from the
specification; each such definition carries a doc comment starting with
"Modelled from the spec:".
-/

namespace NixPrimops

abbrev Path := String

/-- Error kinds of the C++ exception hierarchy as far as the primops
distinguish them: `EvalError`, `TypeError`, the base class `Error`
(here `otherError`), and a failed `assert`. -/
inductive ErrorKind where
  | evalError
  | typeError
  | otherError
  | assertionFailure
deriving DecidableEq

structure NixError where
  kind : ErrorKind
  msg : String
deriving DecidableEq

/-- Hash algorithm tags of libutil's `HashType`; `htUnknown` is the
parse-failure value. -/
inductive HashType where
  | htUnknown
  | htMD5
  | htSHA1
  | htSHA256
deriving DecidableEq

/-- Modelled from the spec: `parseHashType` of the hashing library (not under
`src/`) recognizes the standard algorithm names and yields `htUnknown`
otherwise. -/
def parseHashType (s : String) : HashType :=
  if s = "md5" then .htMD5
  else if s = "sha1" then .htSHA1
  else if s = "sha256" then .htSHA256
  else .htUnknown

/-- Modelled from the spec: the digest byte length of each algorithm
(`Hash::hashSize`). -/
def hashSizeOf : HashType → Nat
  | .htUnknown => 0
  | .htMD5 => 16
  | .htSHA1 => 20
  | .htSHA256 => 32

def hashTypeToString : HashType → String
  | .htUnknown => "unknown"
  | .htMD5 => "md5"
  | .htSHA1 => "sha1"
  | .htSHA256 => "sha256"

/-- Modelled from the spec: length of the fixed alternate base-32 encoding of
a digest of `size` bytes (`hashLength32`). -/
def hashLength32 (size : Nat) : Nat := (size * 8 - 1) / 5 + 1

/-- Modelled from the spec: the hashing library is not under `src/`.  A hash
value is either a digest with known bytes (obtained by parsing a textual
hash) or the hash of a string, represented by the algorithm together with
the exact preimage, so that hashing the same data with the same algorithm
yields the same hash. -/
inductive Hash where
  | digest (type : HashType) (bytes : List Nat)
  | ofString (type : HashType) (preimage : String)
deriving DecidableEq

/-- Modelled from the spec: `hashString ht s` is the `ht`-digest of `s`. -/
def hashString (ht : HashType) (s : String) : Hash := .ofString ht s

def hexDigitChar (n : Nat) : Char :=
  if n < 10 then Char.ofNat (48 + n) else Char.ofNat (87 + n)

def encodeHex (bytes : List Nat) : String :=
  String.mk (bytes.foldr (fun b acc => hexDigitChar (b / 16) :: hexDigitChar (b % 16) :: acc) [])

/-- Modelled from the spec: stand-in digest of a string — a rolling
checksum, so that the digest is a short text determined by the preimage,
like a real digest. -/
def foldDigest (s : String) : Nat :=
  s.data.foldl (fun a c => (a * 31 + c.toNat) % 1000003) 7

/-- Prefix test on character lists (structural, so that concrete runs
reduce inside the kernel). -/
def charsStartWith : List Char → List Char → Bool
  | _, [] => true
  | [], _ :: _ => false
  | a :: as, b :: bs => a == b && charsStartWith as bs

def strStartsWith (s pat : String) : Bool := charsStartWith s.data pat.data

def strEndsWith (s pat : String) : Bool := charsStartWith s.data.reverse pat.data.reverse

def strDrop (s : String) (n : Nat) : String := String.mk (s.data.drop n)

/-- Lexicographic comparison on character lists (structural); `strLt` is
the string ordering used by the sorted `std::map`/`std::set` embeddings. -/
def charListLt : List Char → List Char → Bool
  | [], [] => false
  | [], _ :: _ => true
  | _ :: _, [] => false
  | a :: as, b :: bs => decide (a < b) || (a == b && charListLt as bs)

def strLt (a b : String) : Bool := charListLt a.data b.data

/-- Modelled from the spec: `printHash` renders a digest in lowercase
hexadecimal; for a hash represented by its preimage the digest text is the
deterministic stand-in digest of the preimage. -/
def printHash : Hash → String
  | .digest _ bytes => encodeHex bytes
  | .ofString ht s => "h" ++ hashTypeToString ht ++ ":" ++ toString (foldDigest s)

def hexVal (c : Char) : Option Nat :=
  if 48 ≤ c.toNat ∧ c.toNat ≤ 57 then some (c.toNat - 48)
  else if 97 ≤ c.toNat ∧ c.toNat ≤ 102 then some (c.toNat - 87)
  else if 65 ≤ c.toNat ∧ c.toNat ≤ 70 then some (c.toNat - 55)
  else none

def decodeHexPairs : List Char → Option (List Nat)
  | [] => some []
  | [_] => none
  | c1 :: c2 :: rest => do
      let h ← hexVal c1
      let l ← hexVal c2
      let r ← decodeHexPairs rest
      pure ((16 * h + l) :: r)

/-- Modelled from the spec: `parseHash` decodes a hexadecimal digest of
exactly `2 * hashSize` characters. -/
def parseHash (ht : HashType) (s : String) : Option Hash :=
  if s.length = hashSizeOf ht * 2 then (decodeHexPairs s.data).map (Hash.digest ht) else none

def base32Chars : List Char := "0123456789abcdfghijklmnpqrsvwxyz".data

def base32Val (c : Char) : Option Nat := base32Chars.indexOf? c

def base32Digits : List Char → Option (List Nat)
  | [] => some []
  | c :: r => do
      let v ← base32Val c
      let vs ← base32Digits r
      pure (v :: vs)

def digitsToNat (ds : List Nat) : Nat := ds.foldl (fun a d => a * 32 + d) 0

def natToBytes : Nat → Nat → List Nat
  | 0, _ => []
  | k + 1, n => n % 256 :: natToBytes k (n / 256)

/-- Modelled from the spec: `parseHash32` decodes the fixed alternate base-32
encoding, sized exactly to the hash's byte length. -/
def parseHash32 (ht : HashType) (s : String) : Option Hash :=
  if s.length = hashLength32 (hashSizeOf ht) then
    (base32Digits s.data).map fun ds => Hash.digest ht (natToBytes (hashSizeOf ht) (digitsToNat ds))
  else none

/-- `DerivationOutput` of the derivation model: output path (possibly the
masked empty path), declared hash algorithm and declared hash. -/
structure DerivationOutput where
  path : Path
  hashAlgo : String
  hash : String
deriving DecidableEq

/-- The `Derivation` record.  The C++ `std::map`/`std::set` fields are
embedded as association lists / lists kept sorted by key, matching the
sorted iteration order of the originals. -/
structure Derivation where
  outputs : List (String × DerivationOutput) := []
  inputSrcs : List Path := []
  inputDrvs : List (Path × List String) := []
  platform : String := ""
  builder : String := ""
  args : List String := []
  env : List (String × String) := []
deriving DecidableEq

/-- Insertion into a key-sorted association list, overwriting an existing
binding — the `map[k] = v` operation of `std::map`. -/
def insertSorted {α : Type} (k : String) (v : α) : List (String × α) → List (String × α)
  | [] => [(k, v)]
  | (k2, v2) :: t =>
      if strLt k k2 then (k, v) :: (k2, v2) :: t
      else if k == k2 then (k, v) :: t
      else (k2, v2) :: insertSorted k v t

/-- Insertion into a sorted list without duplicates — `std::set::insert`. -/
def insertSet (p : String) : List String → List String
  | [] => [p]
  | q :: t => if strLt p q then p :: q :: t else if p == q then q :: t else q :: insertSet p t

def quoteString (s : String) : String := "\"" ++ s ++ "\""

/-- Modelled from the spec: the canonical serialization of a derivation
(`unparseDerivation`, not under `src/`) — a fixed field order with the
sorted mappings rendered in order and deterministic quoting. -/
def unparseDerivation (drv : Derivation) : String :=
  "Derive(["
    ++ String.intercalate "," (drv.outputs.map fun o =>
        "(" ++ quoteString o.1 ++ "," ++ quoteString o.2.path ++ ","
          ++ quoteString o.2.hashAlgo ++ "," ++ quoteString o.2.hash ++ ")")
    ++ "],["
    ++ String.intercalate "," (drv.inputDrvs.map fun i =>
        "(" ++ quoteString i.1 ++ ",["
          ++ String.intercalate "," (i.2.map quoteString) ++ "])")
    ++ "],["
    ++ String.intercalate "," (drv.inputSrcs.map quoteString)
    ++ "],"
    ++ quoteString drv.platform ++ "," ++ quoteString drv.builder
    ++ ",["
    ++ String.intercalate "," (drv.args.map quoteString)
    ++ "],["
    ++ String.intercalate "," (drv.env.map fun e =>
        "(" ++ quoteString e.1 ++ "," ++ quoteString e.2 ++ ")")
    ++ "])"

/-- Modelled from the spec: `hashTerm` hashes the printed canonical term
with sha256. -/
def hashTerm (s : String) : Hash := hashString .htSHA256 s

def drvExtension : String := ".drv"

/-- `isDerivation`: a path denotes a derivation description file iff it ends
in the derivation extension. -/
def isDerivation (p : Path) : Bool := strEndsWith p drvExtension

def nixStore : String := "/nix/store"

/-- Modelled from the spec: a store path is a single path component directly
under the store directory. -/
def isStorePath (p : Path) : Bool :=
  strStartsWith p (nixStore ++ "/") && !(p.data.drop (nixStore.length + 1)).contains '/'
    && decide (p.length > nixStore.length + 1)

/-- The process-wide derivation hash cache `EvalState::drvHashes`, threaded
explicitly. -/
abbrev Cache := List (Path × Hash)

/-- `isFixedOutput`: exactly one output, named `"out"`, with a non-empty
declared hash. -/
def isFixedOutput (drv : Derivation) : Bool :=
  match drv.outputs with
  | [(n, o)] => n = "out" && o.hash ≠ ""
  | _ => false

/-- First output of a derivation (`drv.outputs.begin()`); only meaningful
when `outputs` is non-empty. -/
def headOutput (drv : Derivation) : DerivationOutput :=
  match drv.outputs with
  | [] => ⟨"", "", ""⟩
  | o :: _ => o.2

/-- The `foreach` loop over `drv.inputDrvs` in `hashDerivationModulo`: look
each key up in the cache, on a miss load the derivation from the store,
hash it with the recursive call `hdm` (the next-lower fuel level of
`hashDerivationModulo`) and record the result, and rebuild the input map
keyed by the printed hashes. -/
def hashDMInputsGo (store : Path → Option Derivation)
    (hdm : Cache → Derivation → Option (Hash × Cache)) :
    Cache → List (Path × List String) → Option (List (Path × List String) × Cache)
  | cache, [] => some ([], cache)
  | cache, (p, outs) :: rest =>
    match List.lookup p cache with
    | some h =>
      match hashDMInputsGo store hdm cache rest with
      | none => none
      | some (l2, c2) => some (insertSorted (printHash h) outs l2, c2)
    | none =>
      match store p with
      | none => none
      | some drv2 =>
        match hdm cache drv2 with
        | none => none
        | some (h, c1) =>
          match hashDMInputsGo store hdm ((p, h) :: c1) rest with
          | none => none
          | some (l2, c3) => some (insertSorted (printHash h) outs l2, c3)

/-- Body of `hashDerivationModulo`: for a fixed-output derivation the hash
of `"fixed:out:" + hashAlgo + ":" + hash + ":" + path`; otherwise the hash
of the canonical serialization with every `inputDrvs` key replaced through
the input loop. -/
def hashDMBody (store : Path → Option Derivation)
    (hdm : Cache → Derivation → Option (Hash × Cache))
    (cache : Cache) (drv : Derivation) : Option (Hash × Cache) :=
  if isFixedOutput drv then
    some (hashString .htSHA256 ("fixed:out:" ++ (headOutput drv).hashAlgo ++ ":"
      ++ (headOutput drv).hash ++ ":" ++ (headOutput drv).path), cache)
  else
    match hashDMInputsGo store hdm cache drv.inputDrvs with
    | none => none
    | some (inputs2, cache2) =>
        some (hashTerm (unparseDerivation { drv with inputDrvs := inputs2 }), cache2)

/-- `hashDerivationModulo` of `primops.cc`, resolved through the cache.
`store` stands for `derivationFromPath`; `fuel` bounds the recursion depth
(the C++ recursion is unbounded; a terminating C++ run corresponds to any
sufficiently large fuel). -/
def hashDerivationModulo (store : Path → Option Derivation) :
    Nat → Cache → Derivation → Option (Hash × Cache)
  | 0 => hashDMBody store (fun _ _ => none)
  | fuel + 1 => hashDMBody store (hashDerivationModulo store fuel)

/-- Input loop of the cache-free reference hasher. -/
def hashDMPureInputsGo (store : Path → Option Derivation)
    (hdm : Derivation → Option Hash) :
    List (Path × List String) → Option (List (Path × List String))
  | [] => some []
  | (p, outs) :: rest =>
    match store p with
    | none => none
    | some drv2 =>
      match hdm drv2 with
      | none => none
      | some h =>
        match hashDMPureInputsGo store hdm rest with
        | none => none
        | some l2 => some (insertSorted (printHash h) outs l2)

/-- Body of the cache-free reference hasher. -/
def hashDMPureBody (store : Path → Option Derivation)
    (hdm : Derivation → Option Hash) (drv : Derivation) : Option Hash :=
  if isFixedOutput drv then
    some (hashString .htSHA256 ("fixed:out:" ++ (headOutput drv).hashAlgo ++ ":"
      ++ (headOutput drv).hash ++ ":" ++ (headOutput drv).path))
  else
    match hashDMPureInputsGo store hdm drv.inputDrvs with
    | none => none
    | some inputs2 => some (hashTerm (unparseDerivation { drv with inputDrvs := inputs2 }))

/-- Cache-free reference version of `hashDerivationModulo`: identical
recursion, but every input hash is recomputed instead of looked up.  Used
to state that the process-wide cache is only an optimization. -/
def hashDMPure (store : Path → Option Derivation) : Nat → Derivation → Option Hash
  | 0 => hashDMPureBody store (fun _ => none)
  | fuel + 1 => hashDMPureBody store (hashDMPure store fuel)

/-- Correctness of a cache with respect to the cache-free hasher: every
entry records, for some fuel, the hash that recomputation from the store
would produce. -/
def CorrectCache (store : Path → Option Derivation) (cache : Cache) : Prop :=
  ∀ p h, List.lookup p cache = some h →
    ∃ drv2 fuel, store p = some drv2 ∧ hashDMPure store fuel drv2 = some h

/-- Input resolution of `hashDerivationModulo` at a given fuel level: the
loop run with the recursive call one fuel level lower. -/
def hashDMInputs (store : Path → Option Derivation) :
    Nat → Cache → List (Path × List String) → Option (List (Path × List String) × Cache)
  | 0 => hashDMInputsGo store (fun _ _ => none)
  | fuel + 1 => hashDMInputsGo store (hashDerivationModulo store fuel)

/-- Modelled from the spec: `makeStorePath` of the store API — the store
path is a function of the tag, the hash and the name. -/
def makeStorePath (tag : String) (h : Hash) (name : String) : Path :=
  nixStore ++ "/" ++ printHash (hashString .htSHA256 (tag ++ ":" ++ printHash h ++ ":" ++ name))
    ++ "-" ++ name

/-- Modelled from the spec: `makeFixedOutputPath` — the output path of a
fixed-output derivation is a function of exactly the recursive-mode flag,
the algorithm, the hash and the name. -/
def makeFixedOutputPath (recursive : Bool) (ht : HashType) (h : Hash) (name : String) : Path :=
  makeStorePath ("output:out:fixed:" ++ (if recursive then "r:" else "") ++ hashTypeToString ht)
    h name

/-- Modelled from the spec: `writeDerivation` persists the canonical
serialization of the derivation and returns its store path, which ends in
the derivation extension. -/
def writeDerivation (drv : Derivation) (name : String) : Path :=
  nixStore ++ "/" ++ printHash (hashTerm (unparseDerivation drv)) ++ "-" ++ name ++ drvExtension

/-- Modelled from the spec: `checkStoreName` — a store name is non-empty and
contains no forbidden characters. -/
def checkStoreName (name : String) : Option NixError :=
  if name = "" then some ⟨.otherError, "store name is empty"⟩
  else if name.data.all (fun c => c.isAlphanum || c ∈ ['+', '-', '.', '_', '?', '=']) then none
  else some ⟨.otherError, "invalid character in store name"⟩

/-- Values as the derivation constructor observes them after evaluation:
strings carry their context; lists are used by the `args` attribute;
integers stand for the other coercible scalars. -/
inductive CoerceVal where
  | vStr (text : String) (context : List Path)
  | vInt (n : Int)
  | vList (elems : List CoerceVal)

mutual

/-- Modelled from the spec: `coerceToString` of the evaluator (not under
`src/`) — a string yields its text and context, a number its canonical
text with empty context, and (with `coerceMore`) a list coerces
elementwise, joined by spaces, with the contexts collected. -/
def coerceToString : CoerceVal → String × List Path
  | .vStr s ctx => (s, ctx)
  | .vInt n => (toString n, [])
  | .vList es => coerceListToString es

/-- List case of `coerceToString`. -/
def coerceListToString : List CoerceVal → String × List Path
  | [] => ("", [])
  | [e] => coerceToString e
  | e :: rest =>
      ((coerceToString e).1 ++ " " ++ (coerceListToString rest).1,
        (coerceToString e).2 ++ (coerceListToString rest).2)

end

mutual

/-- Modelled from the spec: `flattenList` of the evaluator — flattens
nested lists; a non-list value becomes a singleton list. -/
def flattenList : CoerceVal → List CoerceVal
  | .vList es => flattenListAux es
  | v => [v]

/-- List case of `flattenList`. -/
def flattenListAux : List CoerceVal → List CoerceVal
  | [] => []
  | e :: rest => flattenList e ++ flattenListAux rest

end

/-- Mutable state of one `prim_derivationStrict` run: the derivation being
built, the accumulated string context, the special attribute values, and
the process-wide warn-once state (`haveWarned` plus the warnings printed). -/
structure BuildSt where
  drv : Derivation
  context : List Path
  drvName : String
  outputHash : String
  outputHashAlgo : String
  outputHashRecursive : Bool
  haveWarned : Bool
  warnings : List String
deriving DecidableEq

def argsNotListWarning : String := "the `args' attribute should evaluate to a list"

def ctxUnion (ctx : List Path) (new : List Path) : List Path :=
  new.foldl (fun c p => insertSet p c) ctx

/-- One iteration of the attribute loop of `prim_derivationStrict`: the
`args` attribute feeds the builder's argument list (warn-once and flatten
when it is not a list); every other attribute is coerced to a string,
stored in `env`, and the recognized control attributes update the special
fields; an invalid `outputHashMode` fails with `EvalError`. -/
def processAttr (st : BuildSt) (key : String) (v : CoerceVal) : Except NixError BuildSt :=
  if key = "args" then
    let (es, st) :=
      match v with
      | .vList es => (es, st)
      | v =>
          (flattenList v,
            if st.haveWarned then st
            else { st with haveWarned := true, warnings := st.warnings ++ [argsNotListWarning] })
    let rs := es.map coerceToString
    .ok { st with
            drv := { st.drv with args := st.drv.args ++ rs.map Prod.fst },
            context := ctxUnion st.context (rs.map Prod.snd).flatten }
  else
    let (s, ctx) := coerceToString v
    let st := { st with
                  context := ctxUnion st.context ctx,
                  drv := { st.drv with env := insertSorted key s st.drv.env } }
    if key = "builder" then .ok { st with drv := { st.drv with builder := s } }
    else if key = "system" then .ok { st with drv := { st.drv with platform := s } }
    else if key = "name" then .ok { st with drvName := s }
    else if key = "outputHash" then .ok { st with outputHash := s }
    else if key = "outputHashAlgo" then .ok { st with outputHashAlgo := s }
    else if key = "outputHashMode" then
      if s = "recursive" then .ok { st with outputHashRecursive := true }
      else if s = "flat" then .ok { st with outputHashRecursive := false }
      else .error ⟨.evalError, "invalid value `" ++ s ++ "' for `outputHashMode' attribute"⟩
    else .ok st

/-- The attribute loop.  On an error the loop stops; the state reached so
far is still reported so that the process-wide warn-once flag survives the
exception, as the C++ `static bool` does. -/
def processAttrsLoop : List (String × CoerceVal) → BuildSt → BuildSt × Option NixError
  | [], st => (st, none)
  | (k, v) :: rest, st =>
      match processAttr st k v with
      | .ok st2 => processAttrsLoop rest st2
      | .error e => (st, some e)

/-- One step of the `"="`-path closure loop (lines 374-378): insert the
closure member into `inputSrcs` and, when it is a derivation, also into
`inputDrvs`. -/
def addRef (d : Derivation) (j : Path) : Derivation :=
  let d2 := { d with inputSrcs := insertSet j d.inputSrcs }
  if isDerivation j then { d2 with inputDrvs := insertSorted j ["out"] d2.inputDrvs }
  else d2

/-- The `"="`-path closure loop over `computeFSClosure`'s result. -/
def addClosureRefs (refs : List Path) (drv : Derivation) : Derivation :=
  refs.foldl addRef drv

/-- Handling of one context path of the derivation attributes: an `"="`
path contributes the closure of the stripped path, a `"~"` path is used as
a source, and otherwise a derivation path becomes an input derivation and
any other path an input source. -/
def processContextPath (closure : Path → List Path) (drv : Derivation) (p : Path) :
    Except NixError Derivation :=
  if p = "" then .error ⟨.otherError, "string index out of range"⟩
  else
    let (p1, drv1) :=
      if strStartsWith p "=" then
        (strDrop p 1, addClosureRefs (closure (strDrop p 1)) drv)
      else (p, drv)
    let (p2, useDrvAsSrc) := if strStartsWith p1 "~" then (strDrop p1 1, true) else (p1, false)
    if ¬isStorePath p2 then .error ⟨.assertionFailure, "isStorePath(path)"⟩
    else if ¬useDrvAsSrc && isDerivation p2 then
      .ok { drv1 with inputDrvs := insertSorted p2 ["out"] drv1.inputDrvs }
    else .ok { drv1 with inputSrcs := insertSet p2 drv1.inputSrcs }

/-- The loop over the accumulated context in `prim_derivationStrict`. -/
def processContext (closure : Path → List Path) : List Path → Derivation →
    Except NixError Derivation
  | [], drv => .ok drv
  | p :: rest, drv =>
      match processContextPath closure drv p with
      | .ok drv2 => processContext closure rest drv2
      | .error e => .error e

/-- `evalStringNoCtx`: evaluate to a string and fail if the string carries a
non-empty context. -/
def evalStringNoCtx (v : CoerceVal) : Except NixError String :=
  match v with
  | .vStr s [] => .ok s
  | .vStr _ _ => .error ⟨.evalError, "the string is not allowed to refer to a store path"⟩
  | _ => .error ⟨.typeError, "value is not a string"⟩

/-- The `outputHash` block of `prim_derivationStrict` (lines 403-425): when
an output hash is supplied, parse the algorithm (`EvalError` if unknown),
accept the hash in hexadecimal or base-32 depending on its length (a plain
`Error` when the length fits neither), normalize it, and compute the fixed
output path; returns `(outPath, outputHashAlgo, outputHash)` as left after
the block. -/
def outputHashStep (st : BuildSt) : Except NixError (Path × String × String) :=
  if st.outputHash = "" then .ok ("", "", "")
  else
    let ht := parseHashType st.outputHashAlgo
    if ht = .htUnknown then
      .error ⟨.evalError, "unknown hash algorithm `" ++ st.outputHashAlgo ++ "'"⟩
    else if st.outputHash.length = hashSizeOf ht * 2 then
      match parseHash ht st.outputHash with
      | none => .error ⟨.otherError, "invalid hash `" ++ st.outputHash ++ "'"⟩
      | some h =>
          .ok (makeFixedOutputPath st.outputHashRecursive ht h st.drvName,
            if st.outputHashRecursive then "r:" ++ st.outputHashAlgo else st.outputHashAlgo,
            printHash h)
    else if st.outputHash.length = hashLength32 (hashSizeOf ht) then
      match parseHash32 ht st.outputHash with
      | none => .error ⟨.otherError, "invalid hash `" ++ st.outputHash ++ "'"⟩
      | some h =>
          .ok (makeFixedOutputPath st.outputHashRecursive ht h st.drvName,
            if st.outputHashRecursive then "r:" ++ st.outputHashAlgo else st.outputHashAlgo,
            printHash h)
    else
      .error ⟨.otherError, "hash `" ++ st.outputHash ++ "' has wrong length for hash type `"
        ++ st.outputHashAlgo ++ "'"⟩

/-- Result of a successful `prim_derivationStrict`: the final derivation,
its store path, the computed output path, and the two attributes of the
returned attribute set, each a string paired with its context. -/
structure DrvResult where
  drv : Derivation
  drvPath : Path
  outPath : Path
  outPathVal : String × List Path
  drvPathVal : String × List Path
deriving DecidableEq

/-- The "masked" derivation (lines 433-439): the `out` output and the `out`
environment entry are blanked so that the output-path computation is
independent of the not-yet-known path. -/
def maskDerivation (algo2 hash2 : String) (drv1 : Derivation) : Derivation :=
  { drv1 with
      env := insertSorted "out" "" drv1.env,
      outputs := insertSorted "out" ⟨"", algo2, hash2⟩ drv1.outputs }

/-- The final derivation (lines 446-449): the computed output path is
written into the `out` output and the `out` environment entry. -/
def finalizeDerivation (outPath algo2 hash2 : String) (drvMasked : Derivation) : Derivation :=
  { drvMasked with
      env := insertSorted "out" outPath drvMasked.env,
      outputs := insertSorted "out" ⟨outPath, algo2, hash2⟩ drvMasked.outputs }

/-- Output-path computation (lines 441-444): the fixed-output path when one
was computed, otherwise the store path derived from the hash of the masked
derivation. -/
def computeOutPath (store : Path → Option Derivation) (fuel : Nat) (cache : Cache)
    (name : String) (outPath0 : Path) (drvMasked : Derivation) : Option (Path × Cache) :=
  if outPath0 = "" then
    match hashDerivationModulo store fuel cache drvMasked with
    | none => none
    | some (h, cache1) => some (makeStorePath "output:out" h name, cache1)
  else some (outPath0, cache)

/-- The attribute set returned by the constructor (lines 462-469). -/
def mkDrvResult (drvFinal : Derivation) (drvPath outPath : Path) : DrvResult :=
  { drv := drvFinal, drvPath := drvPath, outPath := outPath,
    outPathVal := (outPath, [drvPath]),
    drvPathVal := (drvPath, ["=" ++ drvPath]) }

/-- Tail of `prim_derivationStrict` after the attribute loop and the context
partition (lines 397-469): required-attribute checks, the output-hash
block, the store-name checks, masking, output-path computation via
`hashDerivationModulo`, finalization, persisting the derivation, and the
cache update for the written derivation path. -/
def finishDerivation (store : Path → Option Derivation) (fuel : Nat) (cache : Cache)
    (st : BuildSt) (drv1 : Derivation) : Except NixError (DrvResult × Cache) :=
  if drv1.builder = "" then .error ⟨.evalError, "required attribute `builder' missing"⟩
  else if drv1.platform = "" then .error ⟨.evalError, "required attribute `system' missing"⟩
  else
    match outputHashStep st with
    | .error e => .error e
    | .ok (outPath0, algo2, hash2) =>
      match checkStoreName st.drvName with
      | some e => .error e
      | none =>
        if isDerivation st.drvName then
          .error ⟨.evalError, "derivation names are not allowed to end in `" ++ drvExtension ++ "'"⟩
        else
          match computeOutPath store fuel cache st.drvName outPath0
              (maskDerivation algo2 hash2 drv1) with
          | none => .error ⟨.otherError, "derivation hashing ran out of fuel"⟩
          | some (outPath, cache1) =>
            match hashDerivationModulo store fuel cache1
                (finalizeDerivation outPath algo2 hash2 (maskDerivation algo2 hash2 drv1)) with
            | none => .error ⟨.otherError, "derivation hashing ran out of fuel"⟩
            | some (h2, cache2) =>
              .ok (mkDrvResult
                  (finalizeDerivation outPath algo2 hash2 (maskDerivation algo2 hash2 drv1))
                  (writeDerivation
                    (finalizeDerivation outPath algo2 hash2 (maskDerivation algo2 hash2 drv1))
                    st.drvName)
                  outPath,
                (writeDerivation
                    (finalizeDerivation outPath algo2 hash2 (maskDerivation algo2 hash2 drv1))
                    st.drvName, h2) :: cache2)

/-- Continuation of `prim_derivationStrict` after the attribute loop: `lp`
is the loop's result (final state plus the error that stopped it, if
any). -/
def derivationStrictAfterLoop (store : Path → Option Derivation)
    (closure : Path → List Path) (fuel : Nat) (cache : Cache)
    (lp : BuildSt × Option NixError) :
    Bool × List String × Except NixError (DrvResult × Cache) :=
  match lp.2 with
  | some e => (lp.1.haveWarned, lp.1.warnings, .error e)
  | none =>
    match processContext closure lp.1.context lp.1.drv with
    | .error e => (lp.1.haveWarned, lp.1.warnings, .error e)
    | .ok drv1 => (lp.1.haveWarned, lp.1.warnings, finishDerivation store fuel cache lp.1 drv1)

/-- Initial state of the attribute loop. -/
def initSt (haveWarned : Bool) (drvName0 : String) : BuildSt :=
  { drv := {}, context := [], drvName := drvName0, outputHash := "",
    outputHashAlgo := "", outputHashRecursive := false,
    haveWarned := haveWarned, warnings := [] }

/-- `prim_derivationStrict`: the strict derivation constructor.  `store`
and `closure` are the store collaborators (`derivationFromPath`,
`computeFSClosure`), `cache` the process-wide hash cache, `haveWarned` the
process-wide warn-once flag; the result reports the new flag, the warnings
printed during the call, and either the constructed result with the new
cache or the error thrown. -/
def prim_derivationStrict (store : Path → Option Derivation)
    (closure : Path → List Path) (fuel : Nat) (cache : Cache) (haveWarned : Bool)
    (attrs : List (String × CoerceVal)) :
    Bool × List String × Except NixError (DrvResult × Cache) :=
  match List.lookup "name" attrs with
  | none => (haveWarned, [], .error ⟨.evalError, "required attribute `name' missing"⟩)
  | some vName =>
    match evalStringNoCtx vName with
    | .error e => (haveWarned, [], .error e)
    | .ok drvName0 =>
      derivationStrictAfterLoop store closure fuel cache
        (processAttrsLoop attrs (initSt haveWarned drvName0))

/-- `coerceToPath` of the evaluator: coerce to a string, collecting the
context; the primops themselves decide whether a non-empty context is
allowed. -/
def coerceToPath (v : CoerceVal) : String × List Path := coerceToString v

/-- `prim_toString` (lines 940-945): coerce the argument to a string and
build the result with `mkString` — which, as the source's `// !!! context`
comment records, attaches no context at all. -/
def prim_toString (v : CoerceVal) : String × List Path :=
  ((coerceToString v).1, [])

/-- `prim_pathExists` (lines 529-536): coerce the argument to a path, fail
with `EvalError` when the context is non-empty, otherwise consult the
filesystem (`fs`). -/
def prim_pathExists (fs : Path → Bool) (v : CoerceVal) : Except NixError Bool :=
  let pc := coerceToPath v
  if ¬pc.2.isEmpty then
    .error ⟨.evalError, "string `" ++ pc.1 ++ "' cannot refer to other paths"⟩
  else .ok (fs pc.1)

/-- `prim_readFile` (lines 562-569): coerce the argument to a path, fail
with `EvalError` when the context is non-empty, otherwise read the file
(`fs`). -/
def prim_readFile (fs : Path → String) (v : CoerceVal) : Except NixError String :=
  let pc := coerceToPath v
  if ¬pc.2.isEmpty then
    .error ⟨.evalError, "string `" ++ pc.1 ++ "' cannot refer to other paths"⟩
  else .ok (fs pc.1)

/-- Values of the new value-based evaluator as the list primops see them:
concrete values plus the two unevaluated forms, an application cell
(`tApp`) and an expression thunk. -/
inductive Value where
  | vInt (n : Int)
  | vStr (s : String)
  | vList (elems : List Value)
  | vFun (fid : Nat)
  | vApp (f : Value) (a : Value)
  | vThunk (tid : Nat)

/-- A value is unevaluated iff it is an application cell or a thunk. -/
def isThunk : Value → Bool
  | .vApp _ _ => true
  | .vThunk _ => true
  | _ => false

/-- Modelled from the spec: `forceList` — force the value and fail with a
`TypeError` unless the result is a list.  The forcing protocol itself
(`state.forceValue`) lives outside `src/` and is passed in as `force`. -/
def forceList (force : Value → Value) (v : Value) : Except NixError (List Value) :=
  match force v with
  | .vList es => .ok es
  | _ => .error ⟨.typeError, "value is not a list"⟩

/-- Modelled from the spec: `forceFunction` — force the value and fail with
a `TypeError` unless the result is a function. -/
def forceFunction (force : Value → Value) (v : Value) : Except NixError Nat :=
  match force v with
  | .vFun fid => .ok fid
  | _ => .error ⟨.typeError, "value is not a function"⟩

/-- `prim_head` (lines 839-846): force the list, fail on an empty list,
force the first element in place and return it.  The returned list is the
element array after the call: only slot 0 has been forced. -/
def prim_head (force : Value → Value) (arg : Value) : Except NixError (Value × List Value) :=
  match forceList force arg with
  | .error e => .error e
  | .ok [] => .error ⟨.otherError, "`head' called on an empty list"⟩
  | .ok (e :: rest) => .ok (force e, force e :: rest)

/-- `prim_tail` (lines 851-859): force the list, fail on an empty list, and
copy elements 1..n-1 into a fresh list without forcing any of them. -/
def prim_tail (force : Value → Value) (arg : Value) : Except NixError Value :=
  match forceList force arg with
  | .error e => .error e
  | .ok [] => .error ⟨.otherError, "`tail' called on an empty list"⟩
  | .ok (_ :: rest) => .ok (.vList rest)

/-- `prim_map` (lines 863-875): force the function and the list, then build
a fresh list whose n-th slot is an application cell of the forced function
to the (unforced) n-th element of the argument list. -/
def prim_map (force : Value → Value) (fArg : Value) (listArg : Value) :
    Except NixError Value :=
  match forceFunction force fArg with
  | .error e => .error e
  | .ok fid =>
    match forceList force listArg with
    | .error e => .error e
    | .ok es => .ok (.vList (es.map fun e => .vApp (.vFun fid) e))

/-- Observable store effects of `prim_import`: a validity query, a build
request, and the final evaluation of the imported file. -/
inductive ImportEvent where
  | checkedValid (p : Path)
  | built (p : Path)
  | evaled (p : Path)
deriving DecidableEq

/-- The context loop of `prim_import` (lines 35-44): for each context path,
assert it is a store path, fail with `EvalError` if the store reports it
invalid, request a build if it is a derivation; after the loop, evaluate
the imported file.  The trace records the store interactions in order. -/
def importLoop (isValid : Path → Bool) (path : Path) :
    List Path → List ImportEvent × Option NixError
  | [] => ([.evaled path], none)
  | p :: rest =>
      if ¬isStorePath p then ([], some ⟨.assertionFailure, "isStorePath(*i)"⟩)
      else if ¬isValid p then
        ([.checkedValid p],
          some ⟨.evalError,
            "cannot import `" ++ path ++ "', since path `" ++ p ++ "' is not valid"⟩)
      else
        let pre := .checkedValid p :: (if isDerivation p then [.built p] else [])
        let rec2 := importLoop isValid path rest
        (pre ++ rec2.1, rec2.2)

/-- `prim_import` (lines 30-45): coerce the argument to a path and run the
context loop. -/
def prim_import (isValid : Path → Bool) (v : CoerceVal) :
    List ImportEvent × Option NixError :=
  let pc := coerceToPath v
  importLoop isValid pc.1 pc.2

/-- Checks that every build request in a trace is preceded by a validity
check of the same path: the accumulator holds the paths checked so far. -/
def buildsChecked (checked : List Path) : List ImportEvent → Bool
  | [] => true
  | .checkedValid p :: tr => buildsChecked (p :: checked) tr
  | .built p :: tr => decide (p ∈ checked) && buildsChecked checked tr
  | .evaled _ :: tr => buildsChecked checked tr

/-- The attributes that determine a fixed-output derivation's output path:
the name, the declared hash, its algorithm and the hash mode. -/
def determiningKey (k : String) : Bool :=
  k == "name" || k == "outputHash" || k == "outputHashAlgo" || k == "outputHashMode"

/-- The fields of the loop state that the output-hash block reads:
`(drvName, outputHash, outputHashAlgo, outputHashRecursive)`. -/
def detFields (st : BuildSt) : String × String × String × Bool :=
  (st.drvName, st.outputHash, st.outputHashAlgo, st.outputHashRecursive)

/-- Effect of one attribute on the determining fields, mirroring the
branch structure of `processAttr`. -/
def detStep (q : String × String × String × Bool) (k : String) (v : CoerceVal) :
    Except NixError (String × String × String × Bool) :=
  if k = "args" then .ok q
  else
    let s := (coerceToString v).1
    if k = "builder" then .ok q
    else if k = "system" then .ok q
    else if k = "name" then .ok (s, q.2.1, q.2.2.1, q.2.2.2)
    else if k = "outputHash" then .ok (q.1, s, q.2.2.1, q.2.2.2)
    else if k = "outputHashAlgo" then .ok (q.1, q.2.1, s, q.2.2.2)
    else if k = "outputHashMode" then
      if s = "recursive" then .ok (q.1, q.2.1, q.2.2.1, true)
      else if s = "flat" then .ok (q.1, q.2.1, q.2.2.1, false)
      else .error ⟨.evalError, "invalid value `" ++ s ++ "' for `outputHashMode' attribute"⟩
    else .ok q

/-- Effect of an attribute list on the determining fields. -/
def detLoop : List (String × CoerceVal) → (String × String × String × Bool) →
    Except NixError (String × String × String × Bool)
  | [], q => .ok q
  | (k, v) :: rest, q =>
      match detStep q k v with
      | .ok q2 => detLoop rest q2
      | .error e => .error e

/-- Shape of the `args` attribute's contribution: the elements of a list,
or the flattening of any other value. -/
def argsElems : CoerceVal → List CoerceVal
  | .vList es => es
  | v => flattenList v

def isListVal : CoerceVal → Bool
  | .vList _ => true
  | _ => false

/-- Concrete forcing function for the witnesses: thunks and application
cells evaluate to fixed integers, every concrete value forces to itself. -/
def wForce : Value → Value
  | .vThunk _ => .vInt 7
  | .vApp _ _ => .vInt 8
  | v => v

def w2dep : Derivation :=
  { outputs := [("out", ⟨"/nix/store/dep-out", "sha256", "abc123"⟩)], builder := "/bin/fetch" }

def w2drv : Derivation :=
  { outputs := [("out", ⟨"", "", ""⟩)], builder := "/bin/sh", platform := "m",
    inputDrvs := [("/nix/store/aaa.drv", ["out"])], env := [("builder", "/bin/sh")] }

def w2store : Path → Option Derivation :=
  fun p => if p = "/nix/store/aaa.drv" then some w2dep else none

def w2cache : Cache :=
  [("/nix/store/aaa.drv", hashString .htSHA256 "fixed:out:sha256:abc123:/nix/store/dep-out")]

def c4attrs : List (String × CoerceVal) :=
  [("name", .vStr "x" []), ("builder", .vStr "/bin/sh" []), ("system", .vStr "x86_64-linux" [])]

def c3oh : String := "00000000000000000000000000000000"

def c3attrs : List (String × CoerceVal) :=
  [("name", .vStr "x" []), ("builder", .vStr "/bin/sh" []),
   ("system", .vStr "x86_64-linux" []), ("outputHash", .vStr c3oh []),
   ("outputHashAlgo", .vStr "md5" []), ("args", .vList [.vStr "a" []])]

def c3attrs2 : List (String × CoerceVal) :=
  [("name", .vStr "x" []), ("builder", .vStr "/bin/sh" []),
   ("system", .vStr "x86_64-linux" []), ("outputHash", .vStr c3oh []),
   ("outputHashAlgo", .vStr "md5" []), ("args", .vList [.vStr "b" [], .vStr "c" []]),
   ("extraEnv", .vStr "zzz" [])]

def c3badAttrs : List (String × CoerceVal) :=
  [("name", .vStr "x" []), ("builder", .vStr "/bin/sh" []),
   ("system", .vStr "x86_64-linux" []), ("outputHash", .vStr "abc" []),
   ("outputHashAlgo", .vStr "sha256" [])]

/-- One invocation of the derivation constructor: its store collaborators
and its evaluated attribute set. -/
structure DrvCall where
  store : Path → Option Derivation
  closure : Path → List Path
  fuel : Nat
  cache : Cache
  attrs : List (String × CoerceVal)

/-- Total number of warnings printed by a sequence of constructor calls in
one process, threading the process-wide warn-once flag from call to call. -/
def warnTotal : List DrvCall → Bool → Nat
  | [], _ => 0
  | c :: rest, w =>
      (prim_derivationStrict c.store c.closure c.fuel c.cache w c.attrs).2.1.length
        + warnTotal rest (prim_derivationStrict c.store c.closure c.fuel c.cache w c.attrs).1

def c9pre : List (String × CoerceVal) :=
  [("name", .vStr "x" []), ("builder", .vStr "/bin/sh" []), ("system", .vStr "x86_64-linux" [])]

def c9elems : List CoerceVal := [.vStr "bar" [], .vInt 7]

def c1out : DerivationOutput := ⟨"/nix/store/aaa-src", "sha256", "0123abcd"⟩

def c1drv : Derivation :=
  { outputs := [("out", c1out)], builder := "/bin/fetchurl", args := ["http://a"] }

def c1drv2 : Derivation :=
  { outputs := [("out", c1out)], builder := "/bin/other", env := [("url", "http://b")] }

/-- C5: the claim says `prim_toString` preserves the context of the coerced
value.  The code (line 944, flagged `// !!! context` by its author)
attaches no context at all: `prim_toString` of a string with context
`ctx` returns the text with the empty context, so at the failing input a
derivation output path present in the argument's context is absent from
the result's context. -/
theorem C5_toString_drops_context :
    (∀ s ctx, prim_toString (.vStr s ctx) = (s, []))
    ∧ (prim_toString (.vStr "/nix/store/abc-out" ["/nix/store/abc-out"])).2.contains
        "/nix/store/abc-out" = false :=
  ⟨fun _ _ => rfl, rfl⟩

/-- C6: `prim_pathExists` and `prim_readFile` fail with an `EvalError`
saying the string cannot refer to other paths whenever the coerced
string's context is non-empty — independently of the filesystem, so no
read is performed — and proceed to the filesystem operation when the
context is empty. -/
theorem C6_context_leak_boundary (fs fs2 : Path → Bool) (fr fr2 : Path → String)
    (s : String) (p : Path) (ctx : List Path) :
    (prim_pathExists fs (.vStr s (p :: ctx))
        = .error ⟨.evalError, "string `" ++ s ++ "' cannot refer to other paths"⟩
      ∧ prim_readFile fr (.vStr s (p :: ctx))
        = .error ⟨.evalError, "string `" ++ s ++ "' cannot refer to other paths"⟩
      ∧ prim_pathExists fs (.vStr s (p :: ctx)) = prim_pathExists fs2 (.vStr s (p :: ctx))
      ∧ prim_readFile fr (.vStr s (p :: ctx)) = prim_readFile fr2 (.vStr s (p :: ctx)))
    ∧ (prim_pathExists fs (.vStr s []) = .ok (fs s)
      ∧ prim_readFile fr (.vStr s []) = .ok (fr s)) :=
  ⟨⟨rfl, rfl, rfl, rfl⟩, rfl, rfl⟩

/-- C7: `prim_head` forces only the first element (the remaining slots keep
their original, possibly unevaluated values), `prim_tail` forces no
element, and `prim_map` returns a list of the same length whose n-th slot
is an unevaluated application cell of the forced function to the original
n-th element. -/
theorem C7_laziness (force : Value → Value) (e : Value) (es : List Value)
    (fArg : Value) (fid : Nat) (xs : List Value)
    (hlist : force (.vList (e :: es)) = .vList (e :: es))
    (hxs : force (.vList xs) = .vList xs)
    (hf : force fArg = .vFun fid) :
    prim_head force (.vList (e :: es)) = .ok (force e, force e :: es)
    ∧ prim_tail force (.vList (e :: es)) = .ok (.vList es)
    ∧ prim_map force fArg (.vList xs) = .ok (.vList (xs.map fun x => .vApp (.vFun fid) x))
    ∧ (xs.map fun x => Value.vApp (.vFun fid) x).length = xs.length
    ∧ ∀ x, isThunk (Value.vApp (.vFun fid) x) = true := by
  refine ⟨?_, ?_, ?_, xs.length_map _, fun x => rfl⟩
  · simp [prim_head, forceList, hlist]
  · simp [prim_tail, forceList, hlist]
  · simp [prim_map, forceFunction, forceList, hf, hxs]

theorem C7_laziness_witness :
    wForce (.vList [.vThunk 0, .vThunk 1]) = .vList [.vThunk 0, .vThunk 1]
    ∧ (prim_head wForce (.vList [.vThunk 0, .vThunk 1]) = .ok (.vInt 7, [.vInt 7, .vThunk 1])
      ∧ prim_tail wForce (.vList [.vThunk 0, .vThunk 1]) = .ok (.vList [.vThunk 1])
      ∧ prim_map wForce (.vFun 3) (.vList [.vThunk 5])
          = .ok (.vList [.vApp (.vFun 3) (.vThunk 5)])
      ∧ ([Value.vThunk 5].map fun x => Value.vApp (.vFun 3) x).length = [Value.vThunk 5].length
      ∧ ∀ x, isThunk (Value.vApp (.vFun 3) x) = true) :=
  ⟨rfl, C7_laziness wForce (.vThunk 0) [.vThunk 1] (.vFun 3) 3 [.vThunk 5] rfl rfl rfl⟩

/-- C8: `prim_head` and `prim_tail` on the empty list fail with the
`called on an empty list` errors; `prim_head` on `[1 2 3]` returns `1`;
`prim_tail` on a list of length n+1 returns the list of its last n
elements in order. -/
theorem C8_head_tail (force : Value → Value)
    (hval : ∀ v, isThunk v = false → force v = v)
    (x : Value) (es : List Value) :
    prim_head force (.vList []) = .error ⟨.otherError, "`head' called on an empty list"⟩
    ∧ prim_tail force (.vList []) = .error ⟨.otherError, "`tail' called on an empty list"⟩
    ∧ prim_head force (.vList [.vInt 1, .vInt 2, .vInt 3])
        = .ok (.vInt 1, [.vInt 1, .vInt 2, .vInt 3])
    ∧ prim_tail force (.vList (x :: es)) = .ok (.vList es)
    ∧ es.length + 1 = (x :: es).length := by
  have h0 : force (Value.vList []) = Value.vList [] := hval _ rfl
  have h3 : force (Value.vList [.vInt 1, .vInt 2, .vInt 3])
      = Value.vList [.vInt 1, .vInt 2, .vInt 3] := hval _ rfl
  have h1 : force (Value.vInt 1) = Value.vInt 1 := hval _ rfl
  have hx : force (Value.vList (x :: es)) = Value.vList (x :: es) := hval _ rfl
  refine ⟨?_, ?_, ?_, ?_, rfl⟩
  · simp [prim_head, forceList, h0]
  · simp [prim_tail, forceList, h0]
  · simp [prim_head, forceList, h3, h1]
  · simp [prim_tail, forceList, hx]

theorem C8_head_tail_witness :
    (∀ v, isThunk v = false → wForce v = v)
    ∧ (prim_head wForce (.vList []) = .error ⟨.otherError, "`head' called on an empty list"⟩
      ∧ prim_tail wForce (.vList []) = .error ⟨.otherError, "`tail' called on an empty list"⟩
      ∧ prim_head wForce (.vList [.vInt 1, .vInt 2, .vInt 3])
          = .ok (.vInt 1, [.vInt 1, .vInt 2, .vInt 3])
      ∧ prim_tail wForce (.vList (.vStr "a" :: [.vInt 4])) = .ok (.vList [.vInt 4])
      ∧ [Value.vInt 4].length + 1 = (Value.vStr "a" :: [Value.vInt 4]).length) := by
  have hval : ∀ v, isThunk v = false → wForce v = v := by
    intro v hv
    cases v <;> simp [isThunk] at hv ⊢ <;> rfl
  exact ⟨hval, C8_head_tail wForce hval (.vStr "a") [.vInt 4]⟩

/-- Every trace produced by the import context loop checks a path's
validity before requesting its build. -/
theorem importLoop_buildsChecked (isValid : Path → Bool) (path : Path) :
    ∀ ctx checked, buildsChecked checked (importLoop isValid path ctx).1 = true := by
  intro ctx
  induction ctx with
  | nil => intro checked; rfl
  | cons p rest ih =>
      intro checked
      by_cases hsp : isStorePath p
      · by_cases hv : isValid p
        · by_cases hd : isDerivation p
          · simp [importLoop, hsp, hv, hd, buildsChecked, ih]
          · simp [importLoop, hsp, hv, hd, buildsChecked, ih]
        · simp [importLoop, hsp, hv, buildsChecked]
      · simp [importLoop, hsp, buildsChecked]

/-- When some context path is invalid, the import context loop stops with
the `EvalError` naming the imported path and that context path, and never
reaches the evaluation of the imported file. -/
theorem importLoop_invalid (isValid : Path → Bool) (path : Path) :
    ∀ ctx, (∀ p ∈ ctx, isStorePath p = true) → (∃ p ∈ ctx, isValid p = false) →
      ∃ p ∈ ctx, isValid p = false
        ∧ (importLoop isValid path ctx).2
            = some ⟨.evalError,
                "cannot import `" ++ path ++ "', since path `" ++ p ++ "' is not valid"⟩
        ∧ (ImportEvent.evaled path ∈ (importLoop isValid path ctx).1 → False) := by
  intro ctx
  induction ctx with
  | nil => rintro _ ⟨p, hp, _⟩; exact absurd hp (by simp)
  | cons q rest ih =>
      rintro hsp ⟨p, hp, hpv⟩
      by_cases hqv : isValid q
      · have hq : isStorePath q = true := hsp q (by simp)
        have hprest : p ∈ rest := by
          rcases List.mem_cons.mp hp with h | h
          · subst h; rw [hpv] at hqv; exact absurd hqv (by simp)
          · exact h
        obtain ⟨r, hr, hrv, herr, hev⟩ :=
          ih (fun a ha => hsp a (List.mem_cons_of_mem _ ha)) ⟨p, hprest, hpv⟩
        refine ⟨r, List.mem_cons_of_mem _ hr, hrv, ?_, ?_⟩
        · simpa [importLoop, hq, hqv] using herr
        · intro hmem
          apply hev
          by_cases hd : isDerivation q <;> simpa [importLoop, hq, hqv, hd] using hmem
      · have hq : isStorePath q = true := hsp q (by simp)
        refine ⟨q, by simp, by simpa using hqv, ?_, ?_⟩
        · simp [importLoop, hq, hqv]
        · intro hmem
          simp [importLoop, hq, hqv] at hmem

/-- C10: when the coerced value's context contains a path the store reports
invalid, `prim_import` fails with the `EvalError` naming both the imported
path and the invalid context path and never evaluates the imported file;
and in every run each context path's validity is checked before its build
is requested. -/
theorem C10_import_validity (isValid : Path → Bool) (path : Path) (ctx : List Path)
    (hsp : ∀ p ∈ ctx, isStorePath p = true)
    (hinv : ∃ p ∈ ctx, isValid p = false) :
    (∃ p ∈ ctx, isValid p = false
      ∧ (prim_import isValid (.vStr path ctx)).2
          = some ⟨.evalError,
              "cannot import `" ++ path ++ "', since path `" ++ p ++ "' is not valid"⟩
      ∧ (ImportEvent.evaled path ∈ (prim_import isValid (.vStr path ctx)).1 → False))
    ∧ buildsChecked [] (prim_import isValid (.vStr path ctx)).1 = true := by
  obtain ⟨p, hp, hpv, herr, hev⟩ := importLoop_invalid isValid path ctx hsp hinv
  exact ⟨⟨p, hp, hpv, herr, hev⟩, importLoop_buildsChecked isValid path ctx []⟩

theorem C10_import_validity_witness :
    (∀ p ∈ ["/nix/store/bad"], isStorePath p = true)
    ∧ ((∃ p ∈ ["/nix/store/bad"], (fun _ => false : Path → Bool) p = false
        ∧ (prim_import (fun _ => false) (.vStr "/foo.nix" ["/nix/store/bad"])).2
            = some ⟨.evalError,
                "cannot import `/foo.nix', since path `" ++ p ++ "' is not valid"⟩
        ∧ (ImportEvent.evaled "/foo.nix"
            ∈ (prim_import (fun _ => false) (.vStr "/foo.nix" ["/nix/store/bad"])).1 → False))
      ∧ buildsChecked [] (prim_import (fun _ => false)
          (.vStr "/foo.nix" ["/nix/store/bad"])).1 = true) := by
  have hsp : ∀ p ∈ ["/nix/store/bad"], isStorePath p = true := by decide
  exact ⟨hsp, C10_import_validity (fun _ => false) "/foo.nix" ["/nix/store/bad"] hsp
    ⟨"/nix/store/bad", by simp, rfl⟩⟩

theorem hashDMPureInputsGo_mono (store : Path → Option Derivation)
    (h1 h2 : Derivation → Option Hash)
    (hle : ∀ d h, h1 d = some h → h2 d = some h) :
    ∀ l r, hashDMPureInputsGo store h1 l = some r → hashDMPureInputsGo store h2 l = some r := by
  intro l
  induction l with
  | nil => intro r h; exact h
  | cons x rest ih =>
      obtain ⟨p, outs⟩ := x
      intro r h
      simp only [hashDMPureInputsGo] at h ⊢
      cases hsp : store p with
      | none => simp [hsp] at h
      | some drv2 =>
          simp only [hsp] at h ⊢
          cases hh : h1 drv2 with
          | none => simp [hh] at h
          | some hv =>
              simp only [hh] at h
              simp only [hle drv2 hv hh]
              cases hrest : hashDMPureInputsGo store h1 rest with
              | none => simp [hrest] at h
              | some l2 =>
                  simp only [hrest] at h
                  simp only [ih l2 hrest]
                  exact h

theorem hashDMPureBody_mono (store : Path → Option Derivation)
    (h1 h2 : Derivation → Option Hash)
    (hle : ∀ d h, h1 d = some h → h2 d = some h) :
    ∀ d h, hashDMPureBody store h1 d = some h → hashDMPureBody store h2 d = some h := by
  intro d h hbody
  simp only [hashDMPureBody] at hbody ⊢
  by_cases hfix : isFixedOutput d
  · simpa [hfix] using hbody
  · simp only [hfix, if_false] at hbody ⊢
    cases hin : hashDMPureInputsGo store h1 d.inputDrvs with
    | none => simp [hin] at hbody
    | some l2 =>
        simp only [hin] at hbody
        simp only [hashDMPureInputsGo_mono store h1 h2 hle _ l2 hin]
        exact hbody

theorem hashDMPure_mono_succ (store : Path → Option Derivation) :
    ∀ fuel d h, hashDMPure store fuel d = some h → hashDMPure store (fuel + 1) d = some h := by
  intro fuel
  induction fuel with
  | zero =>
      intro d h hd
      exact hashDMPureBody_mono store _ _ (fun d h hcontra => by cases hcontra) d h hd
  | succ f ih =>
      intro d h hd
      exact hashDMPureBody_mono store _ _ ih d h hd

theorem hashDMPure_mono (store : Path → Option Derivation) {f f2 : Nat} (hle : f ≤ f2) :
    ∀ d h, hashDMPure store f d = some h → hashDMPure store f2 d = some h := by
  induction hle with
  | refl => intro d h hd; exact hd
  | step _ ih =>
      intro d h hd
      exact hashDMPure_mono_succ store _ d h (ih d h hd)

theorem hashDMPure_unique (store : Path → Option Derivation) {f f2 : Nat}
    {d : Derivation} {h h2 : Hash} (hd : hashDMPure store f d = some h)
    (hd2 : hashDMPure store f2 d = some h2) : h = h2 := by
  have e1 := hashDMPure_mono store (Nat.le_max_left f f2) d h hd
  have e2 := hashDMPure_mono store (Nat.le_max_right f f2) d h2 hd2
  rw [e1] at e2
  exact (Option.some.injEq _ _).mp e2

theorem correctCache_cons (store : Path → Option Derivation) {cache : Cache}
    (hcc : CorrectCache store cache) {p : Path} {h : Hash} {drv2 : Derivation} {f : Nat}
    (hsp : store p = some drv2) (hpure : hashDMPure store f drv2 = some h) :
    CorrectCache store ((p, h) :: cache) := by
  intro q hq hlook
  by_cases hqp : q = p
  · subst hqp
    simp [List.lookup] at hlook
    subst hlook
    exact ⟨drv2, f, hsp, hpure⟩
  · have hbf : (q == p) = false := by simpa using hqp
    simp only [List.lookup, hbf] at hlook
    exact hcc q hq hlook

theorem hashDMInputsGo_agrees (store : Path → Option Derivation)
    (hdmC : Cache → Derivation → Option (Hash × Cache))
    (hrel : ∀ cache drv h c2, CorrectCache store cache → hdmC cache drv = some (h, c2) →
      CorrectCache store c2 ∧ ∃ f, hashDMPure store f drv = some h) :
    ∀ l cache r c2, CorrectCache store cache →
      hashDMInputsGo store hdmC cache l = some (r, c2) →
      CorrectCache store c2
        ∧ ∃ f, hashDMPureInputsGo store (hashDMPure store f) l = some r := by
  intro l
  induction l with
  | nil =>
      intro cache r c2 hcc h
      simp only [hashDMInputsGo] at h
      cases h
      exact ⟨hcc, 0, rfl⟩
  | cons x rest ih =>
      obtain ⟨p, outs⟩ := x
      intro cache r c2 hcc h
      simp only [hashDMInputsGo] at h
      cases hlook : List.lookup p cache with
      | some h0 =>
          simp only [hlook] at h
          cases hrest : hashDMInputsGo store hdmC cache rest with
          | none => simp [hrest] at h
          | some lc =>
              obtain ⟨l2, c3⟩ := lc
              simp only [hrest, Option.some.injEq, Prod.mk.injEq] at h
              obtain ⟨hr, hc⟩ := h
              obtain ⟨hcc3, f1, hpin⟩ := ih cache l2 c3 hcc hrest
              obtain ⟨drv2, f0, hsp, hpure⟩ := hcc p h0 hlook
              refine ⟨hc ▸ hcc3, max f0 f1, ?_⟩
              simp only [hashDMPureInputsGo, hsp]
              simp only [hashDMPure_mono store (Nat.le_max_left f0 f1) drv2 h0 hpure]
              simp only [hashDMPureInputsGo_mono store (hashDMPure store f1)
                (hashDMPure store (max f0 f1))
                (hashDMPure_mono store (Nat.le_max_right f0 f1)) rest l2 hpin]
              rw [hr]
      | none =>
          simp only [hlook] at h
          cases hsp : store p with
          | none => simp [hsp] at h
          | some drv2 =>
              simp only [hsp] at h
              cases hdm : hdmC cache drv2 with
              | none => simp [hdm] at h
              | some hc1 =>
                  obtain ⟨h0, c1⟩ := hc1
                  simp only [hdm] at h
                  obtain ⟨hcc1, f0, hpure⟩ := hrel cache drv2 h0 c1 hcc hdm
                  cases hrest : hashDMInputsGo store hdmC ((p, h0) :: c1) rest with
                  | none => simp [hrest] at h
                  | some lc =>
                      obtain ⟨l2, c3⟩ := lc
                      simp only [hrest, Option.some.injEq, Prod.mk.injEq] at h
                      obtain ⟨hr, hc⟩ := h
                      obtain ⟨hcc3, f1, hpin⟩ :=
                        ih ((p, h0) :: c1) l2 c3
                          (correctCache_cons store hcc1 hsp hpure) hrest
                      refine ⟨hc ▸ hcc3, max f0 f1, ?_⟩
                      simp only [hashDMPureInputsGo, hsp]
                      simp only [hashDMPure_mono store (Nat.le_max_left f0 f1) drv2 h0 hpure]
                      simp only [hashDMPureInputsGo_mono store (hashDMPure store f1)
                        (hashDMPure store (max f0 f1))
                        (hashDMPure_mono store (Nat.le_max_right f0 f1)) rest l2 hpin]
                      rw [hr]

theorem hashDMBody_agrees (store : Path → Option Derivation)
    (hdmC : Cache → Derivation → Option (Hash × Cache))
    (hrel : ∀ cache drv h c2, CorrectCache store cache → hdmC cache drv = some (h, c2) →
      CorrectCache store c2 ∧ ∃ f, hashDMPure store f drv = some h) :
    ∀ cache drv h c2, CorrectCache store cache →
      hashDMBody store hdmC cache drv = some (h, c2) →
      CorrectCache store c2 ∧ ∃ f, hashDMPure store f drv = some h := by
  intro cache drv h c2 hcc hbody
  simp only [hashDMBody] at hbody
  by_cases hfix : isFixedOutput drv
  · rw [if_pos hfix] at hbody
    cases hbody
    exact ⟨hcc, 0, by simp [hashDMPure, hashDMPureBody, hfix]⟩
  · rw [if_neg hfix] at hbody
    cases hin : hashDMInputsGo store hdmC cache drv.inputDrvs with
    | none => simp [hin] at hbody
    | some lc =>
        obtain ⟨inputs2, c3⟩ := lc
        simp only [hin, Option.some.injEq, Prod.mk.injEq] at hbody
        obtain ⟨hr, hc⟩ := hbody
        obtain ⟨hcc3, f, hpin⟩ := hashDMInputsGo_agrees store hdmC hrel _ cache inputs2 c3 hcc hin
        refine ⟨hc ▸ hcc3, f + 1, ?_⟩
        rw [← hr]
        simp [hashDMPure, hashDMPureBody, hfix, hpin]

/-- Every successful run of the cached hasher from a correct cache leaves a
correct cache and computes the value of the cache-free hasher. -/
theorem hashDerivationModulo_agrees (store : Path → Option Derivation) :
    ∀ fuel cache drv h c2, CorrectCache store cache →
      hashDerivationModulo store fuel cache drv = some (h, c2) →
      CorrectCache store c2 ∧ ∃ f, hashDMPure store f drv = some h := by
  intro fuel
  induction fuel with
  | zero =>
      exact hashDMBody_agrees store _ (fun cache drv h c2 _ hcontra => by cases hcontra)
  | succ f ih => exact hashDMBody_agrees store _ ih

theorem correctCache_nil (store : Path → Option Derivation) : CorrectCache store [] := by
  intro p h hlook
  simp at hlook

theorem hashDerivationModulo_nonfixed (store : Path → Option Derivation)
    (fuel : Nat) (cache : Cache) (drv : Derivation) (hnf : isFixedOutput drv = false) :
    hashDerivationModulo store fuel cache drv
      = match hashDMInputs store fuel cache drv.inputDrvs with
        | none => none
        | some (inputs2, cache2) =>
            some (hashTerm (unparseDerivation { drv with inputDrvs := inputs2 }), cache2) := by
  cases fuel <;> simp [hashDerivationModulo, hashDMBody, hashDMInputs, hnf]

/-- C2: for every non-fixed-output derivation, a successful
`hashDerivationModulo` run returns the hash of the canonical serialization
with the `inputDrvs` keys replaced through the recursive input resolution
(`hashDMInputs`, which replaces each key by the printed hash of the
derivation stored at it); and the result does not depend on the
process-wide cache: a run from any correct cache and a run from the empty
cache yield the same hash. -/
theorem C2_hash_modulo_pure (store : Path → Option Derivation)
    (fuel fuel2 : Nat) (cache : Cache) (drv : Derivation)
    (h h2 : Hash) (c2 c3 : Cache)
    (hnf : isFixedOutput drv = false)
    (hcc : CorrectCache store cache)
    (hrun : hashDerivationModulo store fuel cache drv = some (h, c2))
    (hrun0 : hashDerivationModulo store fuel2 [] drv = some (h2, c3)) :
    (∃ inputs2, hashDMInputs store fuel cache drv.inputDrvs = some (inputs2, c2)
      ∧ h = hashTerm (unparseDerivation { drv with inputDrvs := inputs2 }))
    ∧ h2 = h := by
  constructor
  · rw [hashDerivationModulo_nonfixed store fuel cache drv hnf] at hrun
    cases hin : hashDMInputs store fuel cache drv.inputDrvs with
    | none => simp [hin] at hrun
    | some lc =>
        obtain ⟨inputs2, cmid⟩ := lc
        simp only [hin, Option.some.injEq, Prod.mk.injEq] at hrun
        obtain ⟨hh, hc⟩ := hrun
        refine ⟨inputs2, ?_, hh.symm⟩
        rw [hc]
  · obtain ⟨_, f1, hp1⟩ := hashDerivationModulo_agrees store fuel cache drv h c2 hcc hrun
    obtain ⟨_, f2, hp2⟩ :=
      hashDerivationModulo_agrees store fuel2 [] drv h2 c3 (correctCache_nil store) hrun0
    exact hashDMPure_unique store hp2 hp1

theorem w2cache_correct : CorrectCache w2store w2cache := by
  intro p h hl
  by_cases hp : p = "/nix/store/aaa.drv"
  · subst hp
    simp [w2cache, List.lookup] at hl
    subst hl
    refine ⟨w2dep, 1, by simp [w2store], by decide⟩
  · have hbf : (p == "/nix/store/aaa.drv") = false := by simpa using hp
    simp [w2cache, List.lookup, hbf] at hl

theorem C2_hash_modulo_pure_witness :
    isFixedOutput w2drv = false
    ∧ CorrectCache w2store w2cache
    ∧ ∃ h c2 h2 c3,
        hashDerivationModulo w2store 2 w2cache w2drv = some (h, c2)
        ∧ hashDerivationModulo w2store 3 [] w2drv = some (h2, c3)
        ∧ ((∃ inputs2, hashDMInputs w2store 2 w2cache w2drv.inputDrvs = some (inputs2, c2)
            ∧ h = hashTerm (unparseDerivation { w2drv with inputDrvs := inputs2 }))
          ∧ h2 = h) :=
  ⟨rfl, w2cache_correct, _, _, _, _, rfl, rfl,
    C2_hash_modulo_pure w2store 2 3 w2cache w2drv _ _ _ _ rfl w2cache_correct rfl rfl⟩

/-- Characterization of the `args` branch of the attribute loop: it never
fails, leaves the environment and the determining fields alone, appends the
coerced elements (of the list, or of the flattening fallback) to the args
sequence, and warns exactly when the value is not a list and the warn-once
flag is still unset. -/
theorem processAttr_args (st : BuildSt) (v : CoerceVal) :
    ∃ st2, processAttr st "args" v = .ok st2
      ∧ detFields st2 = detFields st
      ∧ st2.drv.env = st.drv.env
      ∧ st2.drv.args = st.drv.args ++ (argsElems v).map (fun e => (coerceToString e).1)
      ∧ st2.warnings = st.warnings
          ++ (if st.haveWarned || isListVal v then [] else [argsNotListWarning])
      ∧ st2.haveWarned = (st.haveWarned || !isListVal v) := by
  cases v with
  | vList es =>
      refine ⟨_, rfl, rfl, rfl, ?_, by simp [isListVal], by simp [isListVal]⟩
      simp [argsElems]
  | vStr s ctx =>
      by_cases hw : st.haveWarned
      · refine ⟨_, rfl, ?_, ?_, ?_, ?_, ?_⟩ <;>
          simp [processAttr, detFields, hw, argsElems, isListVal]
      · refine ⟨_, rfl, ?_, ?_, ?_, ?_, ?_⟩ <;>
          simp [processAttr, detFields, hw, argsElems, isListVal]
  | vInt n =>
      by_cases hw : st.haveWarned
      · refine ⟨_, rfl, ?_, ?_, ?_, ?_, ?_⟩ <;>
          simp [processAttr, detFields, hw, argsElems, isListVal]
      · refine ⟨_, rfl, ?_, ?_, ?_, ?_, ?_⟩ <;>
          simp [processAttr, detFields, hw, argsElems, isListVal]

/-- Characterization of the non-`args` branches of the attribute loop:
either the attribute succeeds — storing the coerced text in the
environment, leaving args and the warn state alone, and updating the
determining fields exactly as `detStep` does — or it is an invalid
`outputHashMode` and both fail with the same error. -/
theorem processAttr_cases (st : BuildSt) (k : String) (v : CoerceVal) (hk : k ≠ "args") :
    (∃ st2, processAttr st k v = .ok st2
      ∧ detStep (detFields st) k v = .ok (detFields st2)
      ∧ st2.drv.args = st.drv.args
      ∧ st2.drv.env = insertSorted k (coerceToString v).1 st.drv.env
      ∧ st2.warnings = st.warnings ∧ st2.haveWarned = st.haveWarned)
    ∨ (∃ e, processAttr st k v = .error e ∧ detStep (detFields st) k v = .error e) := by
  by_cases h1 : k = "builder"
  · subst h1
    exact .inl ⟨_, rfl, by simp [detStep, detFields], rfl, rfl, rfl, rfl⟩
  by_cases h2 : k = "system"
  · subst h2
    exact .inl ⟨_, rfl, by simp [detStep, detFields], rfl, rfl, rfl, rfl⟩
  by_cases h3 : k = "name"
  · subst h3
    exact .inl ⟨_, rfl, by simp [detStep, detFields], rfl, rfl, rfl, rfl⟩
  by_cases h4 : k = "outputHash"
  · subst h4
    exact .inl ⟨_, rfl, by simp [detStep, detFields], rfl, rfl, rfl, rfl⟩
  by_cases h5 : k = "outputHashAlgo"
  · subst h5
    exact .inl ⟨_, rfl, by simp [detStep, detFields], rfl, rfl, rfl, rfl⟩
  by_cases h6 : k = "outputHashMode"
  · subst h6
    by_cases hr : (coerceToString v).1 = "recursive"
    · left
      refine ⟨{ st with
          context := ctxUnion st.context (coerceToString v).2,
          drv := { st.drv with
            env := insertSorted "outputHashMode" (coerceToString v).1 st.drv.env },
          outputHashRecursive := true }, ?_, ?_, ?_, ?_, ?_, ?_⟩ <;>
        simp [processAttr, detStep, detFields, hr]
    by_cases hf : (coerceToString v).1 = "flat"
    · left
      refine ⟨{ st with
          context := ctxUnion st.context (coerceToString v).2,
          drv := { st.drv with
            env := insertSorted "outputHashMode" (coerceToString v).1 st.drv.env },
          outputHashRecursive := false }, ?_, ?_, ?_, ?_, ?_, ?_⟩ <;>
        simp [processAttr, detStep, detFields, hr, hf]
    right
    refine ⟨⟨.evalError,
      "invalid value `" ++ (coerceToString v).1 ++ "' for `outputHashMode' attribute"⟩, ?_, ?_⟩
    · simp [processAttr, hr, hf]
    · simp [detStep, hr, hf]
  left
  refine ⟨{ st with
      context := ctxUnion st.context (coerceToString v).2,
      drv := { st.drv with
        env := insertSorted k (coerceToString v).1 st.drv.env } }, ?_, ?_, ?_, ?_, ?_, ?_⟩ <;>
    simp [processAttr, detStep, detFields, hk, h1, h2, h3, h4, h5, h6]

theorem detStep_nondet (q : String × String × String × Bool) (k : String) (v : CoerceVal)
    (hk : determiningKey k = false) : detStep q k v = .ok q := by
  have h3 : k ≠ "name" := by rintro rfl; simp [determiningKey] at hk
  have h4 : k ≠ "outputHash" := by rintro rfl; simp [determiningKey] at hk
  have h5 : k ≠ "outputHashAlgo" := by rintro rfl; simp [determiningKey] at hk
  have h6 : k ≠ "outputHashMode" := by rintro rfl; simp [determiningKey] at hk
  by_cases h0 : k = "args"
  · simp [detStep, h0]
  by_cases h1 : k = "builder"
  · simp [detStep, h0, h1]
  by_cases h2 : k = "system"
  · simp [detStep, h0, h1, h2]
  simp [detStep, h0, h1, h2, h3, h4, h5, h6]

/-- The determining fields after a successful attribute loop are computed
by `detLoop` over the determining attributes alone. -/
theorem processAttrsLoop_det (attrs : List (String × CoerceVal)) :
    ∀ st, (processAttrsLoop attrs st).2 = none →
      detLoop (attrs.filter fun kv => determiningKey kv.1) (detFields st)
        = .ok (detFields (processAttrsLoop attrs st).1) := by
  induction attrs with
  | nil => intro st _; rfl
  | cons kv rest ih =>
      obtain ⟨k, v⟩ := kv
      intro st h
      by_cases hargs : k = "args"
      · subst hargs
        obtain ⟨st2, hok, hdet, -, -, -, -⟩ := processAttr_args st v
        simp only [processAttrsLoop, hok] at h ⊢
        have hfk : determiningKey "args" = false := rfl
        simp only [List.filter_cons, hfk, Bool.false_eq_true, if_false]
        rw [← hdet]
        exact ih st2 h
      · rcases processAttr_cases st k v hargs with
          ⟨st2, hok, hstep, -, -, -, -⟩ | ⟨e, herr, -⟩
        · simp only [processAttrsLoop, hok] at h ⊢
          by_cases hdk : determiningKey k
          · simp only [List.filter_cons, hdk, if_true]
            simp only [detLoop, hstep]
            exact ih st2 h
          · have hdk2 : determiningKey k = false := by simpa using hdk
            simp only [List.filter_cons, hdk2, Bool.false_eq_true, if_false]
            have := detStep_nondet (detFields st) k v hdk2
            rw [this] at hstep
            have hEq : detFields st = detFields st2 := by
              injection hstep
            rw [hEq]
            exact ih st2 h
        · simp [processAttrsLoop, herr] at h

/-- Looking up `name` is unaffected by restriction to the determining
attributes. -/
theorem lookup_name_filter (attrs : List (String × CoerceVal)) :
    List.lookup "name" attrs
      = List.lookup "name" (attrs.filter fun kv => determiningKey kv.1) := by
  induction attrs with
  | nil => rfl
  | cons kv rest ih =>
      obtain ⟨k, v⟩ := kv
      by_cases hk : k = "name"
      · subst hk
        simp [List.lookup, List.filter_cons, determiningKey]
      · have hbeq : ("name" == k) = false := by
          simpa using fun hcontra => hk hcontra.symm
        by_cases hdk : determiningKey k
        · simp [List.lookup, List.filter_cons, hdk, hbeq, ih]
        · simp [List.lookup, List.filter_cons, hdk, hbeq, ih]

/-- Success analysis of `prim_derivationStrict`: a successful run factors
through the name lookup, the attribute loop, the context partition and
`finishDerivation`. -/
theorem prim_derivationStrict_ok (store : Path → Option Derivation)
    (closure : Path → List Path) (fuel : Nat) (cache : Cache) (w : Bool)
    (attrs : List (String × CoerceVal)) (wa : Bool) (warns : List String)
    (r : DrvResult) (cA : Cache)
    (h : prim_derivationStrict store closure fuel cache w attrs = (wa, warns, .ok (r, cA))) :
    ∃ vName drvName0 drv1,
      List.lookup "name" attrs = some vName
      ∧ evalStringNoCtx vName = .ok drvName0
      ∧ (processAttrsLoop attrs (initSt w drvName0)).2 = none
      ∧ processContext closure (processAttrsLoop attrs (initSt w drvName0)).1.context
          (processAttrsLoop attrs (initSt w drvName0)).1.drv = .ok drv1
      ∧ finishDerivation store fuel cache (processAttrsLoop attrs (initSt w drvName0)).1 drv1
          = .ok (r, cA)
      ∧ wa = (processAttrsLoop attrs (initSt w drvName0)).1.haveWarned
      ∧ warns = (processAttrsLoop attrs (initSt w drvName0)).1.warnings := by
  unfold prim_derivationStrict at h
  cases hn : List.lookup "name" attrs with
  | none => simp [hn] at h
  | some vName =>
      simp only [hn] at h
      cases hs : evalStringNoCtx vName with
      | error e => simp [hs] at h
      | ok drvName0 =>
          simp only [hs] at h
          unfold derivationStrictAfterLoop at h
          cases hlp : (processAttrsLoop attrs (initSt w drvName0)).2 with
          | some e => simp [hlp] at h
          | none =>
              simp only [hlp] at h
              cases hpc : processContext closure
                  (processAttrsLoop attrs (initSt w drvName0)).1.context
                  (processAttrsLoop attrs (initSt w drvName0)).1.drv with
              | error e => simp [hpc] at h
              | ok drv1 =>
                  simp only [hpc] at h
                  have h1 := congrArg (fun t => t.1) h
                  have h2 := congrArg (fun t => t.2.1) h
                  have h3 := congrArg (fun t => t.2.2) h
                  simp only at h1 h2 h3
                  exact ⟨vName, drvName0, drv1, rfl, hs, hlp, hpc, h3, h1.symm, h2.symm⟩

theorem makeStorePath_ne_empty (tag : String) (h : Hash) (name : String) :
    makeStorePath tag h name ≠ "" := by
  intro hc
  have hlen := congrArg String.length hc
  simp only [makeStorePath, String.length_append] at hlen
  have h10 : (nixStore).length = 10 := rfl
  have h1 : ("/" : String).length = 1 := rfl
  rw [h10, h1] at hlen
  simp at hlen

theorem parseHash_length (ht : HashType) (s : String) (hp : Hash)
    (h : parseHash ht s = some hp) : s.length = hashSizeOf ht * 2 := by
  unfold parseHash at h
  by_cases hl : s.length = hashSizeOf ht * 2
  · exact hl
  · simp [hl] at h

theorem parseHash32_length (ht : HashType) (s : String) (hp : Hash)
    (h : parseHash32 ht s = some hp) : s.length = hashLength32 (hashSizeOf ht) := by
  unfold parseHash32 at h
  by_cases hl : s.length = hashLength32 (hashSizeOf ht)
  · exact hl
  · simp [hl] at h

/-- Analysis of the output-hash block when an output hash was supplied: the
algorithm parsed, the hash was accepted in one of the two encodings, and
the returned path is the fixed-output path — in particular non-empty. -/
theorem outputHashStep_fixed (st : BuildSt) (op a2 h2 : String)
    (h : outputHashStep st = .ok (op, a2, h2)) (hoh : st.outputHash ≠ "") :
    parseHashType st.outputHashAlgo ≠ .htUnknown
    ∧ ∃ hp, (parseHash (parseHashType st.outputHashAlgo) st.outputHash = some hp
          ∨ parseHash32 (parseHashType st.outputHashAlgo) st.outputHash = some hp)
      ∧ op = makeFixedOutputPath st.outputHashRecursive (parseHashType st.outputHashAlgo) hp
          st.drvName
      ∧ op ≠ "" := by
  unfold outputHashStep at h
  rw [if_neg hoh] at h
  by_cases hu : parseHashType st.outputHashAlgo = .htUnknown
  · simp [hu] at h
  rw [if_neg hu] at h
  by_cases hl1 : st.outputHash.length = hashSizeOf (parseHashType st.outputHashAlgo) * 2
  · rw [if_pos hl1] at h
    cases hph : parseHash (parseHashType st.outputHashAlgo) st.outputHash with
    | none => simp [hph] at h
    | some hp =>
        simp only [hph, Except.ok.injEq, Prod.mk.injEq] at h
        obtain ⟨hop, -⟩ := h
        exact ⟨hu, hp, Or.inl rfl, hop.symm,
          hop ▸ makeStorePath_ne_empty _ _ _⟩
  · rw [if_neg hl1] at h
    by_cases hl2 : st.outputHash.length = hashLength32 (hashSizeOf (parseHashType st.outputHashAlgo))
    · rw [if_pos hl2] at h
      cases hph : parseHash32 (parseHashType st.outputHashAlgo) st.outputHash with
      | none => simp [hph] at h
      | some hp =>
          simp only [hph, Except.ok.injEq, Prod.mk.injEq] at h
          obtain ⟨hop, -⟩ := h
          exact ⟨hu, hp, Or.inr rfl, hop.symm,
            hop ▸ makeStorePath_ne_empty _ _ _⟩
    · rw [if_neg hl2] at h
      cases h

/-- The output-hash block reads only the determining fields. -/
theorem outputHashStep_congr (st st2 : BuildSt) (h : detFields st = detFields st2) :
    outputHashStep st = outputHashStep st2 := by
  have h1 : st.drvName = st2.drvName := congrArg (fun q => q.1) h
  have h2 : st.outputHash = st2.outputHash := congrArg (fun q => q.2.1) h
  have h3 : st.outputHashAlgo = st2.outputHashAlgo := congrArg (fun q => q.2.2.1) h
  have h4 : st.outputHashRecursive = st2.outputHashRecursive := congrArg (fun q => q.2.2.2) h
  unfold outputHashStep
  rw [h1, h2, h3, h4]

/-- The wrong-length declared hash makes the tail of the constructor fail
with a plain `Error` (not an `EvalError`). -/
theorem finishDerivation_wrong_length (store : Path → Option Derivation) (fuel : Nat)
    (cache : Cache) (st : BuildSt) (drv1 : Derivation)
    (hoh : st.outputHash ≠ "")
    (hu : parseHashType st.outputHashAlgo ≠ .htUnknown)
    (hl1 : st.outputHash.length ≠ hashSizeOf (parseHashType st.outputHashAlgo) * 2)
    (hl2 : st.outputHash.length ≠ hashLength32 (hashSizeOf (parseHashType st.outputHashAlgo)))
    (hb : drv1.builder ≠ "") (hp : drv1.platform ≠ "") :
    finishDerivation store fuel cache st drv1
      = .error ⟨.otherError, "hash `" ++ st.outputHash ++ "' has wrong length for hash type `"
          ++ st.outputHashAlgo ++ "'"⟩ := by
  unfold finishDerivation outputHashStep
  rw [if_neg hb, if_neg hp, if_neg hoh, if_neg hu, if_neg hl1, if_neg hl2]

/-- Full analysis of a successful `finishDerivation`: the shapes of the two
returned attribute values, the final derivation's args and environment,
the derivation path, and — when an output hash was supplied — the fact
that the output path is the one computed by the output-hash block. -/
theorem finishDerivation_ok_all (store : Path → Option Derivation) (fuel : Nat)
    (cache : Cache) (st : BuildSt) (drv1 : Derivation) (r : DrvResult) (cA : Cache)
    (h : finishDerivation store fuel cache st drv1 = .ok (r, cA)) :
    r.outPathVal = (r.outPath, [r.drvPath]) ∧ r.drvPathVal = (r.drvPath, ["=" ++ r.drvPath])
    ∧ r.drv.args = drv1.args
    ∧ r.drv.env = insertSorted "out" r.outPath (insertSorted "out" "" drv1.env)
    ∧ r.drvPath = writeDerivation r.drv st.drvName
    ∧ (st.outputHash ≠ "" → ∃ a2 h2, outputHashStep st = .ok (r.outPath, a2, h2)) := by
  unfold finishDerivation at h
  by_cases hb : drv1.builder = ""
  · simp [hb] at h
  rw [if_neg hb] at h
  by_cases hpl : drv1.platform = ""
  · simp [hpl] at h
  rw [if_neg hpl] at h
  cases hhs : outputHashStep st with
  | error e => simp [hhs] at h
  | ok triple =>
      obtain ⟨outPath0, algo2, hash2⟩ := triple
      simp only [hhs] at h
      cases hcn : checkStoreName st.drvName with
      | some e => simp [hcn] at h
      | none =>
          simp only [hcn] at h
          by_cases hd : isDerivation st.drvName
          · simp [hd] at h
          rw [if_neg (by simpa using hd)] at h
          cases hco : computeOutPath store fuel cache st.drvName outPath0
              (maskDerivation algo2 hash2 drv1) with
          | none => simp [hco] at h
          | some oc =>
              obtain ⟨outPath, cache1⟩ := oc
              simp only [hco] at h
              cases hdm2 : hashDerivationModulo store fuel cache1
                  (finalizeDerivation outPath algo2 hash2 (maskDerivation algo2 hash2 drv1)) with
              | none => simp [hdm2] at h
              | some hc2 =>
                  obtain ⟨h2v, cache2⟩ := hc2
                  simp only [hdm2, Except.ok.injEq, Prod.mk.injEq] at h
                  obtain ⟨hr, -⟩ := h
                  rw [← hr]
                  refine ⟨rfl, rfl, rfl, rfl, rfl, ?_⟩
                  intro hne
                  obtain ⟨-, hp', -, -, hop⟩ :=
                    outputHashStep_fixed st outPath0 algo2 hash2 hhs hne
                  have hofix : outPath = outPath0 := by
                    unfold computeOutPath at hco
                    rw [if_neg hop] at hco
                    injection hco with hco2
                    exact (Prod.mk.injEq .. ▸ hco2).1.symm
                  exact ⟨algo2, hash2, by simp [mkDrvResult, hofix]⟩

/-- C4 (amended): every successful call of the strict derivation
constructor returns an `outPath` attribute whose string is the computed
output path with context the singleton `{drvPath}` — the derivation path,
not the output path as the claim states — and a `drvPath` attribute whose
string is the derivation path with context the singleton
`{"=" ++ drvPath}`. -/
theorem C4_result_contexts (store : Path → Option Derivation)
    (closure : Path → List Path) (fuel : Nat) (cache : Cache) (w : Bool)
    (attrs : List (String × CoerceVal)) (wa : Bool) (warns : List String)
    (r : DrvResult) (cA : Cache)
    (h : prim_derivationStrict store closure fuel cache w attrs = (wa, warns, .ok (r, cA))) :
    r.outPathVal = (r.outPath, [r.drvPath])
    ∧ r.drvPathVal = (r.drvPath, ["=" ++ r.drvPath]) := by
  obtain ⟨vName, drvName0, drv1, -, -, -, -, hfin, -, -⟩ :=
    prim_derivationStrict_ok store closure fuel cache w attrs wa warns r cA h
  obtain ⟨h1, h2, -, -, -, -⟩ := finishDerivation_ok_all _ _ _ _ _ _ _ hfin
  exact ⟨h1, h2⟩

set_option maxRecDepth 40000 in
theorem C4_result_contexts_witness : ∃ r cA,
    prim_derivationStrict (fun _ => none) (fun _ => []) 1 [] false c4attrs
      = (false, [], .ok (r, cA))
    ∧ r.outPathVal = (r.outPath, [r.drvPath])
    ∧ r.drvPathVal = (r.drvPath, ["=" ++ r.drvPath]) :=
  ⟨_, _, rfl,
    C4_result_contexts (fun _ => none) (fun _ => []) 1 [] false c4attrs false [] _ _ rfl⟩

set_option maxRecDepth 40000 in
/-- C4, counterexample to the claim as stated: a successful constructor run
whose `outPath` attribute's context is not the singleton of the output
path (by `C4_result_contexts` it is the singleton of the derivation
path). -/
theorem C4_counterexample :
    ((prim_derivationStrict (fun _ => none) (fun _ => []) 1 [] false c4attrs).2.2.toOption.map
      fun rc => rc.1.outPathVal.2 == [rc.1.outPathVal.1]) = some false := by decide

/-- C3 (amended): with the determining attributes (name, outputHash,
outputHashAlgo, outputHashMode) resolving to `(nm, oh, oha, rc)` and a
non-empty `oh`: (1) any two successful constructor runs whose attribute
sets agree on the determining attributes — and may differ arbitrarily in
`args` and extra environment attributes — have the hash accepted in one of
the two length-checked encodings and compute the same output path, namely
`makeFixedOutputPath rc (parseHashType oha) hp nm`; (2) when `oh` has a
length fitting neither encoding, the constructor's tail fails with a plain
`Error` (kind `otherError`, not the `EvalError` the claim states) saying
the hash has the wrong length. -/
theorem C3_fixed_output_path (attrs : List (String × CoerceVal))
    (vName : CoerceVal) (drvName0 nm oh oha : String) (rc : Bool)
    (hnm : List.lookup "name" attrs = some vName)
    (hstr : evalStringNoCtx vName = .ok drvName0)
    (hdet : detLoop (attrs.filter fun kv => determiningKey kv.1) (drvName0, "", "", false)
      = .ok (nm, oh, oha, rc))
    (hoh : oh ≠ "") :
    (∀ (store store2 : Path → Option Derivation) (closure closure2 : Path → List Path)
      (fuel fuel2 : Nat) (cache cache2 : Cache) (w w2 wa wb : Bool)
      (warnsA warnsB : List String) (r r2 : DrvResult) (cA cB : Cache)
      (attrs2 : List (String × CoerceVal)),
      attrs2.filter (fun kv => determiningKey kv.1)
          = attrs.filter (fun kv => determiningKey kv.1) →
      prim_derivationStrict store closure fuel cache w attrs = (wa, warnsA, .ok (r, cA)) →
      prim_derivationStrict store2 closure2 fuel2 cache2 w2 attrs2 = (wb, warnsB, .ok (r2, cB)) →
      parseHashType oha ≠ .htUnknown
      ∧ (oh.length = hashSizeOf (parseHashType oha) * 2
          ∨ oh.length = hashLength32 (hashSizeOf (parseHashType oha)))
      ∧ ∃ hp, (parseHash (parseHashType oha) oh = some hp
            ∨ parseHash32 (parseHashType oha) oh = some hp)
          ∧ r.outPath = makeFixedOutputPath rc (parseHashType oha) hp nm
          ∧ r2.outPath = r.outPath)
    ∧ (∀ (store3 : Path → Option Derivation) (fuel3 : Nat) (cache3 : Cache)
        (st3 : BuildSt) (drv3 : Derivation),
        st3.outputHash = oh → st3.outputHashAlgo = oha →
        parseHashType oha ≠ .htUnknown →
        oh.length ≠ hashSizeOf (parseHashType oha) * 2 →
        oh.length ≠ hashLength32 (hashSizeOf (parseHashType oha)) →
        drv3.builder ≠ "" → drv3.platform ≠ "" →
        finishDerivation store3 fuel3 cache3 st3 drv3
          = .error ⟨.otherError,
              "hash `" ++ oh ++ "' has wrong length for hash type `" ++ oha ++ "'"⟩) := by
  constructor
  · intro store store2 closure closure2 fuel fuel2 cache cache2 w w2 wa wb
      warnsA warnsB r r2 cA cB attrs2 hfilter hrun1 hrun2
    obtain ⟨vName1, drvName1, drv1A, hnm1, hstr1, hlp1, hpc1, hfin1, -, -⟩ :=
      prim_derivationStrict_ok _ _ _ _ _ _ _ _ _ _ hrun1
    have hv1 : vName1 = vName := by
      rw [hnm] at hnm1
      exact (Option.some.inj hnm1).symm
    have hd1 : drvName1 = drvName0 := by
      rw [hv1, hstr] at hstr1
      injection hstr1 with hx
      exact hx.symm
    rw [hd1] at hlp1 hfin1
    obtain ⟨vName2, drvName2, drv1B, hnm2, hstr2, hlp2, hpc2, hfin2, -, -⟩ :=
      prim_derivationStrict_ok _ _ _ _ _ _ _ _ _ _ hrun2
    have hlook2 : List.lookup "name" attrs2 = some vName := by
      rw [lookup_name_filter attrs2, hfilter, ← lookup_name_filter attrs, hnm]
    have hv2 : vName2 = vName := by
      rw [hlook2] at hnm2
      exact (Option.some.inj hnm2).symm
    have hd2 : drvName2 = drvName0 := by
      rw [hv2, hstr] at hstr2
      injection hstr2 with hx
      exact hx.symm
    rw [hd2] at hlp2 hfin2
    have hdl1 := processAttrsLoop_det attrs (initSt w drvName0) hlp1
    have hdl2 := processAttrsLoop_det attrs2 (initSt w2 drvName0) hlp2
    have hinit1 : detFields (initSt w drvName0) = (drvName0, "", "", false) := rfl
    have hinit2 : detFields (initSt w2 drvName0) = (drvName0, "", "", false) := rfl
    rw [hinit1, hdet] at hdl1
    rw [hinit2, hfilter, hdet] at hdl2
    have hq1 : detFields (processAttrsLoop attrs (initSt w drvName0)).1 = (nm, oh, oha, rc) := by
      injection hdl1 with hx
      exact hx.symm
    have hq2 : detFields (processAttrsLoop attrs2 (initSt w2 drvName0)).1
        = (nm, oh, oha, rc) := by
      injection hdl2 with hx
      exact hx.symm
    have hne1 : (processAttrsLoop attrs (initSt w drvName0)).1.outputHash ≠ "" := by
      have hx := congrArg (fun q => q.2.1) hq1
      simp only [detFields] at hx
      rw [hx]; exact hoh
    obtain ⟨-, -, -, -, -, hops⟩ := finishDerivation_ok_all _ _ _ _ _ _ _ hfin1
    obtain ⟨a2, hsh2, hstep1⟩ := hops hne1
    obtain ⟨hu, hp, hpar, hform, -⟩ :=
      outputHashStep_fixed _ _ _ _ hstep1 hne1
    have e1 : (processAttrsLoop attrs (initSt w drvName0)).1.drvName = nm := by
      have hx := congrArg (fun q => q.1) hq1
      simpa [detFields] using hx
    have e2 : (processAttrsLoop attrs (initSt w drvName0)).1.outputHash = oh := by
      have hx := congrArg (fun q => q.2.1) hq1
      simpa [detFields] using hx
    have e3 : (processAttrsLoop attrs (initSt w drvName0)).1.outputHashAlgo = oha := by
      have hx := congrArg (fun q => q.2.2.1) hq1
      simpa [detFields] using hx
    have e4 : (processAttrsLoop attrs (initSt w drvName0)).1.outputHashRecursive = rc := by
      have hx := congrArg (fun q => q.2.2.2) hq1
      simpa [detFields] using hx
    rw [e2, e3] at hpar
    rw [e1, e3, e4] at hform
    refine ⟨by rw [e3] at hu; exact hu, ?_, hp, hpar, hform, ?_⟩
    · rcases hpar with hx | hx
      · exact Or.inl (parseHash_length _ _ _ hx)
      · exact Or.inr (parseHash32_length _ _ _ hx)
    · have hne2 : (processAttrsLoop attrs2 (initSt w2 drvName0)).1.outputHash ≠ "" := by
        have : (processAttrsLoop attrs2 (initSt w2 drvName0)).1.outputHash = oh :=
          congrArg (fun q => q.2.1) hq2
        rw [this]; exact hoh
      obtain ⟨-, -, -, -, -, hops2⟩ := finishDerivation_ok_all _ _ _ _ _ _ _ hfin2
      obtain ⟨b2, hsh2b, hstep2⟩ := hops2 hne2
      have hcongr : outputHashStep (processAttrsLoop attrs (initSt w drvName0)).1
          = outputHashStep (processAttrsLoop attrs2 (initSt w2 drvName0)).1 :=
        outputHashStep_congr _ _ (by rw [hq1, hq2])
      rw [← hcongr, hstep1] at hstep2
      have : r2.outPath = r.outPath ∧ b2 = a2 ∧ hsh2b = hsh2 := by
        injection hstep2.symm with h1
        exact ⟨(Prod.mk.injEq .. ▸ h1).1, (Prod.mk.injEq .. ▸ (Prod.mk.injEq .. ▸ h1).2).1,
          (Prod.mk.injEq .. ▸ (Prod.mk.injEq .. ▸ h1).2).2⟩
      exact this.1
  · intro store3 fuel3 cache3 st3 drv3 hsoh hsha hu3 hl1 hl2 hb3 hp3
    have := finishDerivation_wrong_length store3 fuel3 cache3 st3 drv3
      (by rw [hsoh]; exact hoh) (by rw [hsha]; exact hu3)
      (by rw [hsoh, hsha]; exact hl1) (by rw [hsoh, hsha]; exact hl2) hb3 hp3
    rw [this, hsoh, hsha]

set_option maxRecDepth 40000 in
theorem C3_fixed_output_path_witness : ∃ wa wb warnsA warnsB r r2 cA cB,
    prim_derivationStrict (fun _ => none) (fun _ => []) 1 [] false c3attrs
      = (wa, warnsA, .ok (r, cA))
    ∧ prim_derivationStrict (fun _ => none) (fun _ => []) 1 [] false c3attrs2
      = (wb, warnsB, .ok (r2, cB))
    ∧ (parseHashType "md5" ≠ .htUnknown
      ∧ (c3oh.length = hashSizeOf (parseHashType "md5") * 2
          ∨ c3oh.length = hashLength32 (hashSizeOf (parseHashType "md5")))
      ∧ ∃ hp, (parseHash (parseHashType "md5") c3oh = some hp
            ∨ parseHash32 (parseHashType "md5") c3oh = some hp)
          ∧ r.outPath = makeFixedOutputPath false (parseHashType "md5") hp "x"
          ∧ r2.outPath = r.outPath) :=
  ⟨_, _, _, _, _, _, _, _, rfl, rfl,
    (C3_fixed_output_path c3attrs (.vStr "x" []) "x" "x" c3oh "md5" false rfl rfl
        rfl (by decide)).1
      (fun _ => none) (fun _ => none) (fun _ => []) (fun _ => []) 1 1 [] [] false false
      _ _ _ _ _ _ _ _ c3attrs2 rfl rfl rfl⟩

set_option maxRecDepth 40000 in
/-- C3, counterexample to the claim as stated: a wrong-length `outputHash`
makes the constructor fail with a plain `Error` (kind `otherError`), not
an `EvalError`. -/
theorem C3_counterexample :
    (prim_derivationStrict (fun _ => none) (fun _ => []) 1 [] false c3badAttrs).2.2
      = .error ⟨.otherError, "hash `abc' has wrong length for hash type `sha256'"⟩
    ∧ ErrorKind.otherError ≠ ErrorKind.evalError := ⟨rfl, by decide⟩

theorem lookup_insertSorted_ne {α : Type} (k k2 : String) (v : α)
    (l : List (String × α)) (hne : k2 ≠ k) :
    List.lookup k2 (insertSorted k v l) = List.lookup k2 l := by
  have hbf : (k2 == k) = false := by simpa using hne
  induction l with
  | nil => simp [insertSorted, List.lookup, hbf]
  | cons x t ih =>
      obtain ⟨k3, v3⟩ := x
      simp only [insertSorted]
      by_cases h1 : strLt k k3
      · simp [h1, List.lookup, hbf]
      · by_cases h2 : (k == k3)
        · have hk3 : k = k3 := by simpa using h2
          rw [if_neg h1, if_pos h2]
          subst hk3
          simp [List.lookup, hbf]
        · rw [if_neg h1, if_neg (by simpa using h2)]
          by_cases h3 : (k2 == k3)
          · simp [List.lookup, h3]
          · simp only [List.lookup, Bool.not_eq_true] at h3 ⊢
            rw [h3]
            simp only [h3] at ih ⊢
            exact ih

theorem addRef_preserves (d : Derivation) (j : Path) :
    (addRef d j).args = d.args ∧ (addRef d j).env = d.env := by
  unfold addRef
  by_cases hd : isDerivation j <;> simp [hd]

theorem addClosureRefs_preserves (refs : List Path) :
    ∀ d, (addClosureRefs refs d).args = d.args ∧ (addClosureRefs refs d).env = d.env := by
  induction refs with
  | nil => intro d; exact ⟨rfl, rfl⟩
  | cons j t ih =>
      intro d
      have h1 := addRef_preserves d j
      have h2 := ih (addRef d j)
      exact ⟨h2.1.trans h1.1, h2.2.trans h1.2⟩

theorem processContextPath_preserves (closure : Path → List Path) (drv : Derivation)
    (p : Path) (d2 : Derivation) (h : processContextPath closure drv p = .ok d2) :
    d2.args = drv.args ∧ d2.env = drv.env := by
  by_cases hp0 : p = ""
  · simp [processContextPath, hp0] at h
  by_cases hstart : strStartsWith p "="
  · by_cases htil : strStartsWith (strDrop p 1) "~"
    · by_cases hsp : isStorePath (strDrop (strDrop p 1) 1)
      · simp [processContextPath, hp0, hstart, htil, hsp] at h
        subst h
        simp [addClosureRefs_preserves (closure (strDrop p 1)) drv]
      · simp [processContextPath, hp0, hstart, htil, hsp] at h
    · by_cases hsp : isStorePath (strDrop p 1)
      · by_cases hd : isDerivation (strDrop p 1) <;>
          simp [processContextPath, hp0, hstart, htil, hsp, hd] at h <;>
          subst h <;>
          simp [addClosureRefs_preserves (closure (strDrop p 1)) drv]
      · simp [processContextPath, hp0, hstart, htil, hsp] at h
  · by_cases htil : strStartsWith p "~"
    · by_cases hsp : isStorePath (strDrop p 1)
      · simp [processContextPath, hp0, hstart, htil, hsp] at h
        subst h
        simp
      · simp [processContextPath, hp0, hstart, htil, hsp] at h
    · by_cases hsp : isStorePath p
      · by_cases hd : isDerivation p <;>
          simp [processContextPath, hp0, hstart, htil, hsp, hd] at h <;>
          subst h <;> simp
      · simp [processContextPath, hp0, hstart, htil, hsp] at h

theorem processContext_preserves (closure : Path → List Path) :
    ∀ (ctx : List Path) (drv drv1 : Derivation),
      processContext closure ctx drv = .ok drv1 →
      drv1.args = drv.args ∧ drv1.env = drv.env := by
  intro ctx
  induction ctx with
  | nil =>
      intro drv drv1 h
      simp only [processContext] at h
      injection h with h2
      rw [h2]
      exact ⟨rfl, rfl⟩
  | cons p rest ih =>
      intro drv drv1 h
      simp only [processContext] at h
      cases hpc : processContextPath closure drv p with
      | error e => rw [hpc] at h; cases h
      | ok d2 =>
          rw [hpc] at h
          obtain ⟨h1, h2⟩ := processContextPath_preserves closure drv p d2 hpc
          obtain ⟨i1, i2⟩ := ih d2 drv1 h
          exact ⟨i1.trans h1, i2.trans h2⟩

theorem processAttrsLoop_argsfree :
    ∀ (attrs : List (String × CoerceVal)) (st : BuildSt),
      (∀ kv ∈ attrs, kv.1 ≠ "args") →
      (processAttrsLoop attrs st).1.drv.args = st.drv.args
      ∧ (List.lookup "args" st.drv.env = none →
          List.lookup "args" (processAttrsLoop attrs st).1.drv.env = none) := by
  intro attrs
  induction attrs with
  | nil => intro st _; exact ⟨rfl, fun h => h⟩
  | cons kv rest ih =>
      obtain ⟨k, v⟩ := kv
      intro st hfree
      have hk : k ≠ "args" := hfree (k, v) (by simp)
      have hfree2 : ∀ kv ∈ rest, kv.1 ≠ "args" :=
        fun kv hkv => hfree kv (List.mem_cons_of_mem _ hkv)
      rcases processAttr_cases st k v hk with
        ⟨st2, hok, -, hargs2, henv2, -, -⟩ | ⟨e, herr, -⟩
      · simp only [processAttrsLoop, hok]
        obtain ⟨ia, ie⟩ := ih st2 hfree2
        refine ⟨ia.trans hargs2, fun hnone => ie ?_⟩
        rw [henv2, lookup_insertSorted_ne k "args" _ _ (Ne.symm hk)]
        exact hnone
      · simp [processAttrsLoop, herr]

theorem processAttrsLoop_with_args :
    ∀ (pre : List (String × CoerceVal)) (v : CoerceVal) (post : List (String × CoerceVal))
      (st : BuildSt),
      (∀ kv ∈ pre, kv.1 ≠ "args") → (∀ kv ∈ post, kv.1 ≠ "args") →
      (processAttrsLoop (pre ++ ("args", v) :: post) st).2 = none →
      (processAttrsLoop (pre ++ ("args", v) :: post) st).1.drv.args
        = st.drv.args ++ (argsElems v).map (fun e => (coerceToString e).1)
      ∧ (List.lookup "args" st.drv.env = none →
          List.lookup "args" (processAttrsLoop (pre ++ ("args", v) :: post) st).1.drv.env
            = none) := by
  intro pre
  induction pre with
  | nil =>
      intro v post st _ hpost _
      obtain ⟨st2, hok, -, henv2, hargs2, -, -⟩ := processAttr_args st v
      simp only [List.nil_append, processAttrsLoop, hok]
      obtain ⟨ia, ie⟩ := processAttrsLoop_argsfree post st2 hpost
      refine ⟨ia.trans hargs2, fun hnone => ie ?_⟩
      rw [henv2]
      exact hnone
  | cons kv pre2 ih =>
      obtain ⟨k, vv⟩ := kv
      intro v post st hpre hpost hsucc
      have hk : k ≠ "args" := hpre (k, vv) (by simp)
      have hpre2 : ∀ kv ∈ pre2, kv.1 ≠ "args" :=
        fun kv hkv => hpre kv (List.mem_cons_of_mem _ hkv)
      rcases processAttr_cases st k vv hk with
        ⟨st2, hok, -, hargs2, henv2, -, -⟩ | ⟨e, herr, -⟩
      · simp only [List.cons_append, List.append_eq, processAttrsLoop, hok] at hsucc ⊢
        obtain ⟨ia, ie⟩ := ih v post st2 hpre2 hpost hsucc
        refine ⟨by rw [ia, hargs2], fun hnone => ie ?_⟩
        rw [henv2, lookup_insertSorted_ne k "args" _ _ (Ne.symm hk)]
        exact hnone
      · simp [processAttrsLoop, herr] at hsucc

theorem processAttr_warn (st : BuildSt) (k : String) (v : CoerceVal) (st2 : BuildSt)
    (h : processAttr st k v = .ok st2) :
    (st.haveWarned = true → st2.haveWarned = true ∧ st2.warnings = st.warnings)
    ∧ st2.warnings.length ≤ st.warnings.length + (if st.haveWarned then 0 else 1)
    ∧ (st2.haveWarned = false → st2.warnings = st.warnings ∧ st.haveWarned = false) := by
  by_cases hk : k = "args"
  · subst hk
    obtain ⟨st3, hok, -, -, -, hwar, hhw⟩ := processAttr_args st v
    rw [hok] at h
    injection h with h2
    subst h2
    refine ⟨?_, ?_, ?_⟩
    · intro hw
      rw [hhw, hwar, hw]
      simp
    · rw [hwar]
      cases hw : st.haveWarned <;> cases hv : isListVal v <;>
        simp [List.length_append] <;> omega
    · intro h2f
      rw [hhw] at h2f
      cases hw : st.haveWarned
      · cases hv : isListVal v
        · rw [hw, hv] at h2f
          simp at h2f
        · simp [hwar, hw, hv]
      · rw [hw] at h2f
        simp at h2f
  · rcases processAttr_cases st k v hk with ⟨st3, hok, -, -, -, hwar, hhw⟩ | ⟨e, herr, -⟩
    · rw [hok] at h
      injection h with h2
      subst h2
      refine ⟨fun hw => ⟨hhw.trans hw, hwar⟩, ?_, fun h2f => ⟨hwar, hhw.symm.trans h2f⟩⟩
      rw [hwar]
      split_ifs <;> omega
    · rw [herr] at h
      cases h

theorem processAttrsLoop_warn (attrs : List (String × CoerceVal)) :
    ∀ st : BuildSt,
      (st.haveWarned = true → (processAttrsLoop attrs st).1.haveWarned = true
        ∧ (processAttrsLoop attrs st).1.warnings = st.warnings)
      ∧ (processAttrsLoop attrs st).1.warnings.length
          ≤ st.warnings.length + (if st.haveWarned then 0 else 1)
      ∧ ((processAttrsLoop attrs st).1.haveWarned = false →
          (processAttrsLoop attrs st).1.warnings = st.warnings ∧ st.haveWarned = false) := by
  induction attrs with
  | nil =>
      intro st
      simp only [processAttrsLoop]
      refine ⟨fun hw => ⟨hw, True.intro⟩, ?_, fun hf => ⟨True.intro, hf⟩⟩
      split_ifs <;> omega
  | cons kv rest ih =>
      obtain ⟨k, v⟩ := kv
      intro st
      cases hpa : processAttr st k v with
      | error e =>
          simp only [processAttrsLoop, hpa]
          refine ⟨fun hw => ⟨hw, True.intro⟩, ?_, fun hf => ⟨True.intro, hf⟩⟩
          split_ifs <;> omega
      | ok st2 =>
          simp only [processAttrsLoop, hpa]
          obtain ⟨w1, w2, w3⟩ := processAttr_warn st k v st2 hpa
          obtain ⟨i1, i2, i3⟩ := ih st2
          refine ⟨?_, ?_, ?_⟩
          · intro hw
            obtain ⟨hw2, hwar2⟩ := w1 hw
            obtain ⟨hw3, hwar3⟩ := i1 hw2
            exact ⟨hw3, hwar3.trans hwar2⟩
          · by_cases hw : st.haveWarned = true
            · obtain ⟨hw2, hwar2⟩ := w1 hw
              rw [if_pos hw]
              rw [if_pos hw2] at i2
              rw [hwar2] at i2
              omega
            · rw [if_neg hw]
              by_cases hw2 : st2.haveWarned = true
              · rw [if_pos hw2] at i2
                rw [if_neg hw] at w2
                omega
              · have hw2f : st2.haveWarned = false := by
                  revert hw2; cases st2.haveWarned <;> simp
                obtain ⟨hwar2, -⟩ := w3 hw2f
                rw [if_neg hw2] at i2
                rw [hwar2] at i2
                omega
          · intro hf
            obtain ⟨hwar3, hw2f⟩ := i3 hf
            obtain ⟨hwar2, hwf⟩ := w3 hw2f
            exact ⟨hwar3.trans hwar2, hwf⟩

theorem derivationStrictAfterLoop_shape (store : Path → Option Derivation)
    (closure : Path → List Path) (fuel : Nat) (cache : Cache)
    (lp : BuildSt × Option NixError) :
    (derivationStrictAfterLoop store closure fuel cache lp).1 = lp.1.haveWarned
    ∧ (derivationStrictAfterLoop store closure fuel cache lp).2.1 = lp.1.warnings := by
  cases h2 : lp.2 with
  | some e => simp [derivationStrictAfterLoop, h2]
  | none =>
      cases hpc : processContext closure lp.1.context lp.1.drv <;>
        simp [derivationStrictAfterLoop, h2, hpc]

theorem prim_derivationStrict_warn (store : Path → Option Derivation)
    (closure : Path → List Path) (fuel : Nat) (cache : Cache) (w : Bool)
    (attrs : List (String × CoerceVal)) :
    ((prim_derivationStrict store closure fuel cache w attrs).1 = false →
      (prim_derivationStrict store closure fuel cache w attrs).2.1 = [])
    ∧ (w = true → (prim_derivationStrict store closure fuel cache w attrs).1 = true
        ∧ (prim_derivationStrict store closure fuel cache w attrs).2.1 = [])
    ∧ (prim_derivationStrict store closure fuel cache w attrs).2.1.length
        ≤ (if w then 0 else 1) := by
  cases hn : List.lookup "name" attrs with
  | none =>
      simp only [prim_derivationStrict, hn]
      exact ⟨fun _ => True.intro, fun hw => ⟨hw, True.intro⟩, by cases w <;> simp⟩
  | some vName =>
      cases he : evalStringNoCtx vName with
      | error e =>
          simp only [prim_derivationStrict, hn, he]
          exact ⟨fun _ => True.intro, fun hw => ⟨hw, True.intro⟩, by cases w <;> simp⟩
      | ok drvName0 =>
          simp only [prim_derivationStrict, hn, he]
          obtain ⟨s1, s2⟩ := derivationStrictAfterLoop_shape store closure fuel cache
            (processAttrsLoop attrs (initSt w drvName0))
          rw [s1, s2]
          obtain ⟨l1, l2, l3⟩ := processAttrsLoop_warn attrs (initSt w drvName0)
          refine ⟨?_, ?_, ?_⟩
          · intro hf
            exact (l3 hf).1
          · intro hw
            obtain ⟨ht, hwar⟩ := l1 hw
            exact ⟨ht, hwar⟩
          · simpa [initSt] using l2

theorem warnTotal_true : ∀ calls : List DrvCall, warnTotal calls true = 0 := by
  intro calls
  induction calls with
  | nil => rfl
  | cons c rest ih =>
      obtain ⟨-, h2, -⟩ := prim_derivationStrict_warn c.store c.closure c.fuel c.cache
        true c.attrs
      obtain ⟨ht, hwar⟩ := h2 rfl
      simp [warnTotal, hwar, ht, ih]

theorem warnTotal_bound : ∀ (calls : List DrvCall) (w : Bool),
    warnTotal calls w ≤ (if w then 0 else 1) := by
  intro calls
  induction calls with
  | nil => intro w; cases w <;> simp [warnTotal]
  | cons c rest ih =>
      intro w
      obtain ⟨h1, h2, h3⟩ := prim_derivationStrict_warn c.store c.closure c.fuel c.cache
        w c.attrs
      cases w with
      | true =>
          obtain ⟨ht, hwar⟩ := h2 rfl
          simp [warnTotal, hwar, ht, warnTotal_true rest]
      | false =>
          simp only [warnTotal]
          by_cases hr : (prim_derivationStrict c.store c.closure c.fuel c.cache
              false c.attrs).1 = true
          · rw [hr, warnTotal_true rest]
            simp only [if_neg (by simp : ¬(false = true))] at h3 ⊢
            omega
          · have hf : (prim_derivationStrict c.store c.closure c.fuel c.cache
                false c.attrs).1 = false := by
              revert hr
              cases (prim_derivationStrict c.store c.closure c.fuel c.cache
                false c.attrs).1 <;> simp
            rw [hf, h1 hf]
            simpa using ih false

/-- C9: the `args` attribute of the derivation constructor.  (1) When it
evaluates to a list, any successful run of the constructor yields a
derivation whose `args` sequence is exactly the elementwise string
coercion of that list, in order, and whose environment has no `args`
entry.  (2) When it evaluates to a non-list, the attribute step does not
fail: it appends the flattening coercion of the value to the `args`
sequence, leaves the environment untouched, warns exactly when the
process-wide flag was still unset, and sets the flag.  (3) Across any
sequence of constructor calls in one process at most one warning is ever
printed — and none at all once the flag is set. -/
theorem C9_args_attribute
    (pre post : List (String × CoerceVal)) (es : List CoerceVal)
    (hpre : ∀ kv ∈ pre, kv.1 ≠ "args") (hpost : ∀ kv ∈ post, kv.1 ≠ "args") :
    (∀ store closure fuel cache w wa warns r cA,
      prim_derivationStrict store closure fuel cache w
          (pre ++ ("args", CoerceVal.vList es) :: post) = (wa, warns, .ok (r, cA)) →
      r.drv.args = es.map (fun e => (coerceToString e).1)
      ∧ List.lookup "args" r.drv.env = none)
    ∧ (∀ (st : BuildSt) (v : CoerceVal), isListVal v = false →
        ∃ st2, processAttr st "args" v = .ok st2
          ∧ st2.drv.args = st.drv.args ++ (flattenList v).map (fun e => (coerceToString e).1)
          ∧ st2.drv.env = st.drv.env
          ∧ st2.warnings = st.warnings ++ (if st.haveWarned then [] else [argsNotListWarning])
          ∧ st2.haveWarned = true)
    ∧ (∀ (calls : List DrvCall) (w : Bool), warnTotal calls w ≤ 1)
    ∧ (∀ calls : List DrvCall, warnTotal calls true = 0) := by
  refine ⟨?_, ?_, ?_, warnTotal_true⟩
  · intro store closure fuel cache w wa warns r cA h
    obtain ⟨vName, drvName0, drv1, -, -, hlp, hpc, hfin, -, -⟩ :=
      prim_derivationStrict_ok store closure fuel cache w _ wa warns r cA h
    obtain ⟨ia, ie⟩ :=
      processAttrsLoop_with_args pre (CoerceVal.vList es) post (initSt w drvName0)
        hpre hpost hlp
    obtain ⟨pa, pe⟩ := processContext_preserves closure _ _ drv1 hpc
    obtain ⟨-, -, ra, re, -, -⟩ := finishDerivation_ok_all store fuel cache _ drv1 r cA hfin
    constructor
    · rw [ra, pa, ia]
      simp [initSt, argsElems]
    · rw [re, lookup_insertSorted_ne "out" "args" _ _ (by decide),
        lookup_insertSorted_ne "out" "args" _ _ (by decide), pe]
      exact ie rfl
  · intro st v hv
    obtain ⟨st2, hok, -, henv, hargs, hwar, hhw⟩ := processAttr_args st v
    refine ⟨st2, hok, ?_, henv, ?_, ?_⟩
    · rw [hargs]
      cases v with
      | vList es2 => simp [isListVal] at hv
      | vStr s c => simp [argsElems]
      | vInt n => simp [argsElems]
    · rw [hwar, hv]
      simp
    · rw [hhw, hv]
      simp
  · intro calls w
    refine le_trans (warnTotal_bound calls w) ?_
    cases w <;> simp

set_option maxRecDepth 40000 in
theorem C9_args_attribute_witness :
    (∀ kv ∈ c9pre, kv.1 ≠ "args")
    ∧ ∃ wa warns r cA,
        prim_derivationStrict (fun _ => none) (fun _ => []) 1 [] false
            (c9pre ++ ("args", CoerceVal.vList c9elems) :: []) = (wa, warns, .ok (r, cA))
        ∧ r.drv.args = c9elems.map (fun e => (coerceToString e).1)
        ∧ List.lookup "args" r.drv.env = none := by
  refine ⟨by decide, ?_⟩
  refine ⟨_, _, _, _, rfl, ?_⟩
  exact (C9_args_attribute c9pre [] c9elems (by decide) (by decide)).1
    (fun _ => none) (fun _ => []) 1 [] false _ _ _ _ rfl

/-- C1: for every fixed-output derivation (exactly one output, named
`"out"`, with a non-empty declared hash), `hashDerivationModulo` returns
the sha256 of `"fixed:out:" ++ hashAlgo ++ ":" ++ hash ++ ":" ++ path` of
that output (leaving the cache untouched); consequently two fixed-output
derivations with identical `(hashAlgo, hash, path)` hash identically
under any stores, fuels, caches, builders, args and environments. -/
theorem C1_fixed_output_hash (store store2 : Path → Option Derivation)
    (fuel fuel2 : Nat) (cache cache2 : Cache) (drv drv2 : Derivation)
    (o o2 : DerivationOutput)
    (h1 : drv.outputs = [("out", o)]) (hh1 : o.hash ≠ "")
    (h2 : drv2.outputs = [("out", o2)]) (hh2 : o2.hash ≠ "")
    (halgo : o2.hashAlgo = o.hashAlgo) (hhash : o2.hash = o.hash) (hpath : o2.path = o.path) :
    hashDerivationModulo store fuel cache drv
      = some (hashString .htSHA256
          ("fixed:out:" ++ o.hashAlgo ++ ":" ++ o.hash ++ ":" ++ o.path), cache)
    ∧ (hashDerivationModulo store fuel cache drv).map Prod.fst
      = (hashDerivationModulo store2 fuel2 cache2 drv2).map Prod.fst := by
  have hfix : isFixedOutput drv = true := by simp [isFixedOutput, h1, hh1]
  have hfix2 : isFixedOutput drv2 = true := by simp [isFixedOutput, h2, hh2]
  have e1 : hashDerivationModulo store fuel cache drv
      = some (hashString .htSHA256
          ("fixed:out:" ++ o.hashAlgo ++ ":" ++ o.hash ++ ":" ++ o.path), cache) := by
    cases fuel <;> simp [hashDerivationModulo, hashDMBody, hfix, headOutput, h1]
  have e2 : hashDerivationModulo store2 fuel2 cache2 drv2
      = some (hashString .htSHA256
          ("fixed:out:" ++ o.hashAlgo ++ ":" ++ o.hash ++ ":" ++ o.path), cache2) := by
    cases fuel2 <;>
      simp [hashDerivationModulo, hashDMBody, hfix2, headOutput, h2, halgo, hhash, hpath]
  exact ⟨e1, by rw [e1, e2]; rfl⟩

theorem C1_fixed_output_hash_witness :
    c1drv.outputs = [("out", c1out)] ∧ c1out.hash ≠ ""
    ∧ (hashDerivationModulo (fun _ => none) 0 [] c1drv
        = some (hashString .htSHA256
            ("fixed:out:" ++ c1out.hashAlgo ++ ":" ++ c1out.hash ++ ":" ++ c1out.path), [])
      ∧ (hashDerivationModulo (fun _ => none) 0 [] c1drv).map Prod.fst
        = (hashDerivationModulo (fun _ => none) 3 [] c1drv2).map Prod.fst) :=
  ⟨rfl, by decide,
    C1_fixed_output_hash (fun _ => none) (fun _ => none) 0 3 [] [] c1drv c1drv2 c1out c1out
      rfl (by decide) rfl (by decide) rfl rfl rfl⟩

end NixPrimops
